import Mathlib

/-!
# Verification of the JSON sanitization core of `n8n-nodes-json-sanitizer`

Shallow embedding of `nodes/JsonSanitizer/services/JsonSanitizationService.ts`:
the `JsonSanitizationService` class (`sanitize`, `repair`, `sanitizeString` and
its cleaning stages) and the module-level `basicJsonRepair` heuristic, together
with models of the JavaScript built-ins they rely on (`JSON.parse`,
`JSON.stringify(v, null, 2)`, `String.prototype.trim`, and the concrete regex
replacements used by the cleaning stages, modelled as character scanners with
JavaScript `replace` semantics: left-to-right scan, resume after each match).

JSON values are modelled by the inductive `Json`; JavaScript numbers are kept
as their numeric lexemes (the service never rewrites number tokens, so lexeme
identity is the right notion of value identity here).  JavaScript strings are
modelled as Lean `String`s (sequences of Unicode scalar values); the only
deliberate deviation is that the `JSON.parse` model rejects lone surrogate
`\uXXXX` escapes, which Lean characters cannot represent.
-/

namespace JsonSan

/-- JSON values as produced by `JSON.parse`.  Numbers carry their source
lexeme; objects carry their key/value pairs in insertion order. -/
inductive Json where
  | null : Json
  | bool (b : Bool) : Json
  | num (lexeme : String) : Json
  | str (s : String) : Json
  | arr (items : List Json) : Json
  | obj (members : List (String × Json)) : Json
deriving Repr

/-! ## Character classes -/

/-- JSON grammar whitespace (ECMA-404 / `JSON.parse`): space, tab, LF, CR. -/
def isJsonWs (c : Char) : Bool :=
  c == ' ' || c == '\t' || c == '\n' || c == '\r'

/-- JavaScript whitespace: the character class of the regex `\s`, which is the
same set trimmed by `String.prototype.trim` (WhiteSpace ∪ LineTerminator). -/
def jsWs (c : Char) : Bool :=
  c == '\t' || c == '\n' || c == '\u000B' || c == '\u000C' || c == '\r' ||
  c == ' ' || c == '\u00A0' || c == '\u1680' ||
  ('\u2000' ≤ c && c ≤ '\u200A') ||
  c == '\u2028' || c == '\u2029' || c == '\u202F' || c == '\u205F' ||
  c == '\u3000' || c == '\uFEFF'

/-- JavaScript line terminators (what `.` in a regex does not match). -/
def isLineTerm (c : Char) : Bool :=
  c == '\n' || c == '\r' || c == '\u2028' || c == '\u2029'

/-! ## Model of `String.prototype.trim` -/

/-- Drop leading JavaScript whitespace. -/
def ltrim (l : List Char) : List Char := l.dropWhile jsWs

/-- `String.prototype.trim` on character lists. -/
def jsTrimL (l : List Char) : List Char :=
  ((ltrim l).reverse.dropWhile jsWs).reverse

/-- `String.prototype.trim`. -/
def jsTrim (s : String) : String := String.mk (jsTrimL s.data)

/-! ## Model of `JSON.parse` -/

/-- Hexadecimal digit value. -/
def hexVal? (c : Char) : Option Nat :=
  if '0' ≤ c ∧ c ≤ '9' then some (c.toNat - '0'.toNat)
  else if 'a' ≤ c ∧ c ≤ 'f' then some (c.toNat - 'a'.toNat + 10)
  else if 'A' ≤ c ∧ c ≤ 'F' then some (c.toNat - 'A'.toNat + 10)
  else none

/-- Decode a single-character JSON escape (`\" \\ \/ \b \f \n \r \t`). -/
def escDecode (e : Char) : Option Char :=
  if e = '"' then some '"'
  else if e = '\\' then some '\\'
  else if e = '/' then some '/'
  else if e = 'b' then some '\u0008'
  else if e = 'f' then some '\u000C'
  else if e = 'n' then some '\n'
  else if e = 'r' then some '\r'
  else if e = 't' then some '\t'
  else none

/-- JSON string body parser (after the opening quote), accumulator-style.
Handles the escapes `\" \\ \/ \b \f \n \r \t \uXXXX` and surrogate pairs;
rejects raw control characters below U+0020, per the JSON grammar. -/
def pStrAux : List Char → List Char → Option (List Char × List Char)
  | _, [] => none
  | acc, c :: r =>
    if c = '"' then some (acc.reverse, r)
    else if c = '\\' then
      match r with
      | 'u' :: h1 :: h2 :: h3 :: h4 :: r3 =>
        match hexVal? h1, hexVal? h2, hexVal? h3, hexVal? h4 with
        | some a, some b, some c2, some d =>
          let n := ((a * 16 + b) * 16 + c2) * 16 + d
          if n < 0xD800 ∨ 0xE000 ≤ n then
            pStrAux (Char.ofNat n :: acc) r3
          else if n < 0xDC00 then
            match r3 with
            | '\\' :: 'u' :: g1 :: g2 :: g3 :: g4 :: r4 =>
              match hexVal? g1, hexVal? g2, hexVal? g3, hexVal? g4 with
              | some e1, some e2, some e3, some e4 =>
                let m := ((e1 * 16 + e2) * 16 + e3) * 16 + e4
                if 0xDC00 ≤ m ∧ m < 0xE000 then
                  pStrAux (Char.ofNat (0x10000 + (n - 0xD800) * 0x400 + (m - 0xDC00)) :: acc) r4
                else none
              | _, _, _, _ => none
            | _ => none
          else none
        | _, _, _, _ => none
      | e :: r2 =>
        match escDecode e with
        | some d => pStrAux (d :: acc) r2
        | none => none
      | [] => none
    else if 0x20 ≤ c.toNat then pStrAux (c :: acc) r
    else none

/-- JSON string parser, positioned after the opening quote. -/
def pStr (l : List Char) : Option (String × List Char) :=
  (pStrAux [] l).map (fun p => (String.mk p.1, p.2))

/-- Lex an optional minus sign. -/
def lexSign : List Char → List Char × List Char
  | '-' :: r => (['-'], r)
  | l => ([], l)

/-- Lex the integer part of a JSON number: `0` or a nonzero digit followed by
digits (the grammar forbids redundant leading zeros). -/
def lexInt : List Char → Option (List Char × List Char)
  | '0' :: r => some (['0'], r)
  | c :: r =>
    if c.isDigit then
      let (ds, r') := r.span Char.isDigit
      some (c :: ds, r')
    else none
  | [] => none

/-- Lex an optional fraction part `.digits`. -/
def lexFrac : List Char → Option (List Char × List Char)
  | '.' :: r =>
    match r.span Char.isDigit with
    | ([], _) => none
    | (ds, r') => some ('.' :: ds, r')
  | l => some ([], l)

/-- The optional sign of an exponent part. -/
def lexExpSign : List Char → List Char × List Char
  | '+' :: rr => (['+'], rr)
  | '-' :: rr => (['-'], rr)
  | l => ([], l)

/-- Lex an optional exponent part `(e|E)(+|-)?digits`. -/
def lexExp : List Char → Option (List Char × List Char)
  | c :: r =>
    if c = 'e' ∨ c = 'E' then
      match (lexExpSign r).2.span Char.isDigit with
      | ([], _) => none
      | (ds, r2) => some (c :: ((lexExpSign r).1 ++ ds), r2)
    else some ([], c :: r)
  | [] => some ([], [])

/-- Lex a full JSON number, returning its lexeme and the remaining input. -/
def lexNum (l : List Char) : Option (List Char × List Char) := do
  let (sgn, l1) := lexSign l
  let (ip, l2) ← lexInt l1
  let (fp, l3) ← lexFrac l2
  let (ep, l4) ← lexExp l3
  pure (sgn ++ ip ++ fp ++ ep, l4)

/-- Skip JSON grammar whitespace. -/
def skipWs (l : List Char) : List Char := l.dropWhile isJsonWs

/-- `JSON.parse` duplicate-key handling: a repeated key overwrites the value
in place (first-occurrence position, last-occurrence value). -/
def insertPair : List (String × Json) → String → Json → List (String × Json)
  | [], k, v => [(k, v)]
  | (k', v') :: rest, k, v =>
    if k' = k then (k', v) :: rest else (k', v') :: insertPair rest k v

mutual

/-- Fuel-indexed JSON value parser.  The input is positioned at the first
character of the value (whitespace already skipped by the caller). -/
def pVal : Nat → List Char → Option (Json × List Char)
  | 0, _ => none
  | fuel + 1, l =>
    match l with
    | '"' :: r => (pStr r).map (fun p => (Json.str p.1, p.2))
    | '{' :: r =>
      match skipWs r with
      | '}' :: r' => some (Json.obj [], r')
      | r1 => (pMems fuel r1 []).map (fun p => (Json.obj p.1, p.2))
    | '[' :: r =>
      match skipWs r with
      | ']' :: r' => some (Json.arr [], r')
      | r1 => (pItems fuel r1 []).map (fun p => (Json.arr p.1, p.2))
    | 'n' :: 'u' :: 'l' :: 'l' :: r => some (Json.null, r)
    | 't' :: 'r' :: 'u' :: 'e' :: r => some (Json.bool true, r)
    | 'f' :: 'a' :: 'l' :: 's' :: 'e' :: r => some (Json.bool false, r)
    | c :: _ =>
      if c = '-' ∨ c.isDigit then
        (lexNum l).map (fun p => (Json.num (String.mk p.1), p.2))
      else none
    | [] => none

/-- Array item loop: parse a value, then `,` for more items or `]` to close. -/
def pItems : Nat → List Char → List Json → Option (List Json × List Char)
  | 0, _, _ => none
  | fuel + 1, l, acc =>
    match pVal fuel l with
    | none => none
    | some (v, r) =>
      match skipWs r with
      | ',' :: r2 => pItems fuel (skipWs r2) (acc ++ [v])
      | ']' :: r2 => some (acc ++ [v], r2)
      | _ => none

/-- Object member loop: parse `"key" : value`, then `,` or `}`. -/
def pMems : Nat → List Char → List (String × Json) →
    Option (List (String × Json) × List Char)
  | 0, _, _ => none
  | fuel + 1, l, acc =>
    match l with
    | '"' :: r =>
      match pStr r with
      | none => none
      | some (k, r1) =>
        match skipWs r1 with
        | ':' :: r2 =>
          match pVal fuel (skipWs r2) with
          | none => none
          | some (v, r3) =>
            match skipWs r3 with
            | ',' :: r4 => pMems fuel (skipWs r4) (insertPair acc k v)
            | '}' :: r4 => some (insertPair acc k v, r4)
            | _ => none
        | _ => none
    | _ => none

end

/-- Model of `JSON.parse`: parse one value surrounded by optional whitespace,
rejecting trailing garbage.  The fuel `2 * length + 2` is enough for any
parse that consumes its input (each unit of nesting or iteration consumes
input characters at least as fast as it consumes fuel). -/
def jsonParse (s : String) : Option Json :=
  match pVal (2 * s.data.length + 2) (skipWs s.data) with
  | some (v, r) => if skipWs r = [] then some v else none
  | none => none

/-! ## Model of `JSON.stringify(v, null, 2)` -/

/-- Lowercase hexadecimal digit. -/
def hexDigitChar (n : Nat) : Char :=
  if n < 10 then Char.ofNat ('0'.toNat + n) else Char.ofNat ('a'.toNat + (n - 10))

/-- `QuoteJSONString` escaping of one character, as `JSON.stringify` emits it. -/
def escChar (c : Char) : List Char :=
  if c = '"' then ['\\', '"']
  else if c = '\\' then ['\\', '\\']
  else if c = '\u0008' then ['\\', 'b']
  else if c = '\t' then ['\\', 't']
  else if c = '\n' then ['\\', 'n']
  else if c = '\u000C' then ['\\', 'f']
  else if c = '\r' then ['\\', 'r']
  else if c.toNat < 0x20 then
    ['\\', 'u', '0', '0', hexDigitChar (c.toNat / 16), hexDigitChar (c.toNat % 16)]
  else [c]

/-- Escape a string body and append the closing quote. -/
def escAll : List Char → List Char
  | [] => ['"']
  | c :: r => escChar c ++ escAll r

/-- A double-quoted JSON string literal for `l`. -/
def quoteJson (l : List Char) : List Char := '"' :: escAll l

/-- Indentation at nesting depth `d` for gap `"  "` (two spaces). -/
def indentChars (d : Nat) : List Char := List.replicate (2 * d) ' '

mutual

/-- `JSON.stringify(v, null, 2)` at nesting depth `d`, on character lists. -/
def printVal : Nat → Json → List Char
  | _, .null => ['n', 'u', 'l', 'l']
  | _, .bool true => ['t', 'r', 'u', 'e']
  | _, .bool false => ['f', 'a', 'l', 's', 'e']
  | _, .num s => s.data
  | _, .str s => quoteJson s.data
  | _, .arr [] => ['[', ']']
  | d, .arr (x :: xs) =>
    '[' :: '\n' :: (indentChars (d + 1) ++ printVal (d + 1) x) ++ printRest (d + 1) xs
      ++ '\n' :: (indentChars d ++ [']'])
  | _, .obj [] => ['{', '}']
  | d, .obj ((k, v) :: ps) =>
    '{' :: '\n' :: (indentChars (d + 1) ++ (quoteJson k.data ++ ':' :: ' ' ::
      printVal (d + 1) v)) ++ printRestM (d + 1) ps ++ '\n' :: (indentChars d ++ ['}'])

/-- Second and later array items, each preceded by `,\n` and indentation. -/
def printRest : Nat → List Json → List Char
  | _, [] => []
  | d, x :: xs => ',' :: '\n' :: (indentChars d ++ printVal d x) ++ printRest d xs

/-- Second and later object members, each preceded by `,\n` and indentation. -/
def printRestM : Nat → List (String × Json) → List Char
  | _, [] => []
  | d, (k, v) :: ps =>
    ',' :: '\n' :: (indentChars d ++ (quoteJson k.data ++ ':' :: ' ' :: printVal d v))
      ++ printRestM d ps

end

/-- Model of `JSON.stringify(input, null, 2)`. -/
def stringify2 (v : Json) : String := String.mk (printVal 0 v)

/-! ## Well-formedness and size of JSON values -/

mutual

/-- Well-formed JSON values: number lexemes are valid JSON number tokens and
object keys are distinct — exactly the values `JSON.parse` (or any JavaScript
runtime value) can produce. -/
def Json.wf : Json → Bool
  | .null => true
  | .bool _ => true
  | .str _ => true
  | .num s => decide (lexNum s.data = some (s.data, []))
  | .arr xs => wfItems xs
  | .obj kvs => wfMembers kvs

/-- All items well-formed. -/
def wfItems : List Json → Bool
  | [] => true
  | x :: xs => Json.wf x && wfItems xs

/-- All members well-formed, keys pairwise distinct. -/
def wfMembers : List (String × Json) → Bool
  | [] => true
  | (k, v) :: rest => !(rest.any (fun p => p.1 == k)) && Json.wf v && wfMembers rest

end

mutual

/-- Node count of a JSON value, a lower bound for the parser fuel needed. -/
def jsize : Json → Nat
  | .null => 1
  | .bool _ => 1
  | .num _ => 1
  | .str _ => 1
  | .arr xs => 1 + jsizeL xs
  | .obj kvs => 1 + jsizeM kvs

/-- Node count of an item list. -/
def jsizeL : List Json → Nat
  | [] => 0
  | x :: xs => 1 + jsize x + jsizeL xs

/-- Node count of a member list. -/
def jsizeM : List (String × Json) → Nat
  | [] => 0
  | (_, v) :: rest => 1 + jsize v + jsizeM rest

end

/-! ## Inputs, results and errors of the service -/

/-- A JavaScript value as it reaches `sanitize`/`repair`.  `object` stands for
any non-null value with `typeof === 'object'` (plain objects and arrays),
carried as its JSON shape. -/
inductive Input where
  | jsNull : Input
  | jsUndefined : Input
  | str (s : String) : Input
  | number (n : Int) : Input
  | boolean (b : Bool) : Input
  | object (v : Json) : Input
deriving Repr

/-- The errors the service throws, by kind, carrying the data its messages
interpolate:

* `invalidInput` — `'Input must be a non-empty string or object'`;
* `unsupportedType` — `'Input must be a string or object'`;
* `typeMismatch` — `'Smart Repair mode requires string input'`;
* `parseFailure preview` — `'Failed to parse JSON after sanitization: …'`
  with the bounded preview of the cleaned text;
* `syntaxError` — a native `JSON.parse` SyntaxError (inside `repair`);
* `repairFailure basic sanitization` — `'Failed to repair JSON with all
  methods: …'`, aggregating both underlying errors. -/
inductive JsError where
  | invalidInput : JsError
  | unsupportedType : JsError
  | typeMismatch : JsError
  | parseFailure (preview : String) : JsError
  | syntaxError : JsError
  | repairFailure (basic : JsError) (sanitization : JsError) : JsError
deriving Repr, DecidableEq

/-- The `SanitizeResult` record.  `wasRepaired` is `none` when the field is
absent from the returned object (the non-repair paths). -/
structure SanitizeResult where
  cleanedString : String
  parsed : Json
  original : Input
  wasAlreadyParsed : Bool
  wasRepaired : Option Bool
deriving Repr

/-! ## The cleaning stages of `sanitizeString` -/

/-- `removeBOM`: drop one leading U+FEFF (`charCodeAt(0) === 0xFEFF`). -/
def removeBOM (s : String) : String :=
  match s.data with
  | c :: rest => if c = '﻿' then String.mk rest else s
  | [] => s

/-- `trimWhitespace`: `input.trim()`. -/
def trimWhitespace (s : String) : String := jsTrim s

/-- `.replace(/^```\s*json\s*\n?/i, '')`: strip an opening ```` ```json ````
fence (case-insensitive `json`; the greedy `\s*` runs leave `\n?` empty). -/
def stripFenceJson (l : List Char) : List Char :=
  match l with
  | '`' :: '`' :: '`' :: r =>
    match r.dropWhile jsWs with
    | c1 :: c2 :: c3 :: c4 :: r2 =>
      if c1.toLower = 'j' ∧ c2.toLower = 's' ∧ c3.toLower = 'o' ∧ c4.toLower = 'n' then
        r2.dropWhile jsWs
      else l
    | _ => l
  | _ => l

/-- `.replace(/^```\s*\n?/i, '')`: strip an opening bare ```` ``` ```` fence. -/
def stripFenceBare : List Char → List Char
  | '`' :: '`' :: '`' :: r => r.dropWhile jsWs
  | l => l

/-- `.replace(/\n?```\s*$/i, '')`: strip a closing ```` ``` ```` fence (the
first — and only possible — match is the final backtick run before trailing
whitespace, with one preceding newline absorbed). -/
def stripFenceClose (l : List Char) : List Char :=
  match l.reverse.dropWhile jsWs with
  | '`' :: '`' :: '`' :: r2 =>
    match r2 with
    | '\n' :: r3 => r3.reverse
    | _ => r2.reverse
  | _ => l

/-- `removeMarkdownFences`: the three fence replacements followed by `.trim()`. -/
def removeMarkdownFences (s : String) : String :=
  jsTrim (String.mk (stripFenceClose (stripFenceBare (stripFenceJson s.data))))

/-- A two-character global `replace`, e.g. `.replace(/\\n/g, '\n')`:
left-to-right scan, resuming after each match. -/
def replaceTwo (a b rep : Char) : List Char → List Char
  | x :: y :: rest =>
    if x = a ∧ y = b then rep :: replaceTwo a b rep rest
    else x :: replaceTwo a b rep (y :: rest)
  | l => l

/-- `input.startsWith('"')`. -/
def startsWithQuote (s : String) : Bool :=
  match s.data with
  | '"' :: _ => true
  | _ => false

/-- `handleDoublyEscapedJSON`: if the text starts with `"` and parses as a
JSON string, replace it by that inner string with the sequences
`\" \n \r \t \\` further unescaped (in that order), then trim. -/
def handleDoublyEscapedJSON (s : String) : String :=
  if startsWithQuote s then
    match jsonParse s with
    | some (Json.str inner) =>
      jsTrim (String.mk (replaceTwo '\\' '\\' '\\'
        (replaceTwo '\\' 't' '\t' (replaceTwo '\\' 'r' '\r'
          (replaceTwo '\\' 'n' '\n' (replaceTwo '\\' '"' '"' inner.data))))))
    | _ => s
  else s

/-- Scanner for `.replace(/,(\s*[}\]])/g, '$1')`: a comma followed by
whitespace and a closing brace/bracket loses the comma; scanning resumes
after the kept `$1`.  Fuel-indexed: each step consumes at least one
character, so fuel `length` always suffices. -/
def rtcGo : Nat → List Char → List Char
  | 0, l => l
  | _, [] => []
  | fuel + 1, ',' :: rest =>
    match rest.dropWhile jsWs with
    | '}' :: r2 => rest.takeWhile jsWs ++ '}' :: rtcGo fuel r2
    | ']' :: r2 => rest.takeWhile jsWs ++ ']' :: rtcGo fuel r2
    | _ => ',' :: rtcGo fuel rest
  | fuel + 1, c :: rest => c :: rtcGo fuel rest

/-- The trailing-comma replacement on character lists. -/
def rtcL (l : List Char) : List Char := rtcGo l.length l

/-- `removeTrailingCommas`. -/
def removeTrailingCommas (s : String) : String := String.mk (rtcL s.data)

/-- Find the end of a `*/`-terminated run: drop through the first `*/`. -/
def dropToClose : List Char → Option (List Char)
  | '*' :: '/' :: r => some r
  | _ :: r => dropToClose r
  | [] => none

/-- Scanner for `.replace(/\/\*[\s\S]*?\*\//g, '')`: non-greedy
block-comment removal; an unclosed `/*` (no later `*/`) matches nothing and
is kept.  Fuel-indexed. -/
def sbGo : Nat → List Char → List Char
  | 0, l => l
  | _, [] => []
  | fuel + 1, '/' :: '*' :: rest =>
    match dropToClose rest with
    | some r => sbGo fuel r
    | none => '/' :: '*' :: rest
  | fuel + 1, c :: rest => c :: sbGo fuel rest

/-- Block-comment removal on character lists. -/
def stripBlockComments (l : List Char) : List Char := sbGo l.length l

/-- Scanner for `.replace(/\/\/.*/g, '')`: from `//`, drop to the line
terminator (which `.` does not match and which is kept).  Fuel-indexed. -/
def slGo : Nat → List Char → List Char
  | 0, l => l
  | _, [] => []
  | fuel + 1, '/' :: '/' :: rest => slGo fuel (rest.dropWhile (fun c => !isLineTerm c))
  | fuel + 1, c :: rest => c :: slGo fuel rest

/-- Line-comment removal on character lists. -/
def stripLineComments (l : List Char) : List Char := slGo l.length l

/-- `removeComments`: block comments first, then line comments. -/
def removeComments (s : String) : String :=
  String.mk (stripLineComments (stripBlockComments s.data))

/-- `.replace(/\r\n/g, '\n')`. -/
def crlfToLf : List Char → List Char
  | '\r' :: '\n' :: rest => '\n' :: crlfToLf rest
  | c :: rest => c :: crlfToLf rest
  | [] => []

/-- `normalizeLineEndings`: `\r\n` to `\n`, then lone `\r` to `\n`. -/
def normalizeLineEndings (s : String) : String :=
  String.mk ((crlfToLf s.data).map (fun c => if c = '\r' then '\n' else c))

/-- The preview embedded in a parse-failure message: first 200 characters
plus an ellipsis when longer. -/
def previewOf (s : String) : String :=
  if 200 < s.data.length then String.mk (s.data.take 200) ++ "..." else s

/-- `parseJSON`: `JSON.parse` with the enriched failure carrying the preview. -/
def parseJSON (s : String) : Except JsError Json :=
  (jsonParse s).elim (.error (.parseFailure (previewOf s))) .ok

/-! ## The service operations -/

/-- The eight cleaning stages of `sanitizeString`, in source order. -/
def transformStages (s : String) : String :=
  jsTrim (normalizeLineEndings (removeComments (removeTrailingCommas
    (handleDoublyEscapedJSON (removeMarkdownFences (jsTrim (removeBOM s)))))))

/-- `sanitizeString`: clean, parse, and package the result; the parse failure
is propagated as-is (no fallback of any kind). -/
def sanitizeString (s : String) : Except JsError SanitizeResult :=
  (parseJSON (transformStages s)).map
    (fun parsed => ⟨transformStages s, parsed, .str s, false, none⟩)

/-- `validateInput`: throws for `null`, `undefined` and `''`. -/
def validateInput (input : Input) : Option JsError :=
  match input with
  | .jsNull => some .invalidInput
  | .jsUndefined => some .invalidInput
  | .str s => if s = "" then some .invalidInput else none
  | _ => none

/-- `handleParsedObject`: pretty-print with indent 2, keep the value. -/
def handleParsedObject (v : Json) : SanitizeResult :=
  ⟨stringify2 v, v, .object v, true, none⟩

/-- `sanitize`: validate, short-circuit structured input, clean strings,
reject other primitives. -/
def sanitize (input : Input) : Except JsError SanitizeResult :=
  match validateInput input with
  | some e => .error e
  | none =>
    match input with
    | .object v => .ok (handleParsedObject v)
    | .str s => sanitizeString s
    | _ => .error .unsupportedType

/-! ## `basicJsonRepair` and `repair` -/

/-- `repaired.replace(/"/g, '\\"')`: escape embedded double quotes (only). -/
def escapeQuotes : List Char → List Char
  | [] => []
  | c :: r => (if c = '"' then ['\\', '"'] else [c]) ++ escapeQuotes r

/-- `repaired.match(/^\s*(\[|\{|")/)`: after optional whitespace, the text
starts with `[`, `{` or `"`. -/
def startsJsonLike (l : List Char) : Bool :=
  match l.dropWhile jsWs with
  | c :: _ => c == '[' || c == '{' || c == '"'
  | [] => false

/-- Split at the first apostrophe: `some (before, after)` if one exists. -/
def splitAtApos : List Char → Option (List Char × List Char)
  | [] => none
  | '\'' :: r => some ([], r)
  | c :: r => (splitAtApos r).map (fun p => (c :: p.1, p.2))

/-- Scanner for `.replace(/'([^']*)'/g, '"$1"')`: a single-quoted run (no
embedded apostrophes) becomes double-quoted; an unpaired apostrophe matches
nothing.  Fuel-indexed. -/
def sqGo : Nat → List Char → List Char
  | 0, l => l
  | _, [] => []
  | fuel + 1, '\'' :: rest =>
    match splitAtApos rest with
    | some (mid, r2) => '"' :: (mid ++ '"' :: sqGo fuel r2)
    | none => '\'' :: rest
  | fuel + 1, c :: rest => c :: sqGo fuel rest

/-- Single-quote conversion on character lists. -/
def singleToDouble (l : List Char) : List Char := sqGo l.length l

/-- Scanner for `.replace(/"\s+"/g, '", "')`: two quotes separated by
(nonempty) whitespace get a comma.  Fuel-indexed. -/
def icGo : Nat → List Char → List Char
  | 0, l => l
  | _, [] => []
  | fuel + 1, '"' :: rest =>
    match rest.dropWhile jsWs with
    | '"' :: r2 =>
      if (rest.takeWhile jsWs).isEmpty then '"' :: icGo fuel rest
      else '"' :: ',' :: ' ' :: '"' :: icGo fuel r2
    | _ => '"' :: icGo fuel rest
  | fuel + 1, c :: rest => c :: icGo fuel rest

/-- Missing-comma insertion between adjacent quoted strings. -/
def insertCommas (l : List Char) : List Char := icGo l.length l

/-- `[a-zA-Z_$]`. -/
def isIdentStart (c : Char) : Bool := c.isAlpha || c == '_' || c == '$'

/-- `[a-zA-Z0-9_$]`. -/
def isIdentChar (c : Char) : Bool := c.isAlphanum || c == '_' || c == '$'

/-- Scanner for `.replace(/([{,]\s*)([a-zA-Z_$][a-zA-Z0-9_$]*)\s*:/g,
'$1"$2":')`: quote a bare identifier key after `{` or `,`; the whitespace
between identifier and colon is dropped (not captured).  Fuel-indexed. -/
def qbkGo : Nat → List Char → List Char
  | 0, l => l
  | _, [] => []
  | fuel + 1, c :: tl =>
    if c = '{' ∨ c = ',' then
      match tl.dropWhile jsWs with
      | d :: r2 =>
        if isIdentStart d then
          match (r2.dropWhile isIdentChar).dropWhile jsWs with
          | ':' :: r5 =>
            c :: (tl.takeWhile jsWs ++
              '"' :: (d :: r2.takeWhile isIdentChar ++ '"' :: ':' :: qbkGo fuel r5))
          | _ => c :: qbkGo fuel tl
        else c :: qbkGo fuel tl
      | [] => c :: qbkGo fuel tl
    else c :: qbkGo fuel tl

/-- Bare-key quoting on character lists. -/
def quoteBareKeys (l : List Char) : List Char := qbkGo l.length l

/-- `basicJsonRepair`: wrap non-JSON-looking text as a string literal,
otherwise apply the six heuristic regex passes in source order. -/
def basicJsonRepair (input : String) : String :=
  let repaired := (jsTrim input).data
  if !startsJsonLike repaired then
    String.mk ('"' :: (escapeQuotes repaired ++ ['"']))
  else
    String.mk (rtcL (quoteBareKeys (insertCommas (singleToDouble
      (stripLineComments (stripBlockComments repaired))))))

/-- The string path of `repair`: validate, heuristic repair then
`JSON.parse`, with `wasRepaired = (repairedString !== input.trim())`; on
parse failure fall back to `sanitizeString`, and aggregate both errors (the
native SyntaxError and the sanitization error) if that fails too. -/
def repairStr (s : String) : Except JsError SanitizeResult :=
  (validateInput (.str s)).elim
    ((jsonParse (basicJsonRepair s)).elim
      ((sanitizeString s).mapError (fun e => .repairFailure .syntaxError e))
      (fun parsed => .ok ⟨basicJsonRepair s, parsed, .str s, false,
        some (basicJsonRepair s != jsTrim s)⟩))
    (fun e => .error e)

/-- `repair`: requires string input (`'Smart Repair mode requires string
input'` otherwise), then runs the string repair path. -/
def repair (input : Input) : Except JsError SanitizeResult :=
  match input with
  | .str s => repairStr s
  | _ => .error .typeMismatch

/-! ## Syntactic predicates used in theorem statements -/

/-- Whether the characters `a` then `b` occur adjacently somewhere. -/
def hasTwo (a b : Char) : List Char → Bool
  | x :: y :: r => (decide (x = a) && decide (y = b)) || hasTwo a b (y :: r)
  | _ => false

/-- Whether the text contains a comma followed by optional whitespace and a
closing `}` or `]` — the pattern the trailing-comma stage rewrites. -/
def hasCommaClose : List Char → Bool
  | ',' :: rest =>
    (match rest.dropWhile jsWs with
     | '}' :: _ => true
     | ']' :: _ => true
     | _ => hasCommaClose rest)
  | _ :: rest => hasCommaClose rest
  | [] => false

/-- Number of JavaScript-whitespace characters in a list. -/
def wsCount (l : List Char) : Nat := (l.filter jsWs).length

/-- A continuation that cannot extend a complete JSON number lexeme: empty,
or starting with a character that is not a digit, a decimal point or an
exponent marker. -/
def numSafe : List Char → Bool
  | [] => true
  | c :: _ => !(c.isDigit || c == '.' || c == 'e' || c == 'E')

/-! ## Basic list and trim lemmas -/

/-- The head surviving a `dropWhile` fails the predicate. -/
theorem dropWhile_head_false {α : Type} (p : α → Bool) :
    ∀ (l : List α) (c : α) (r : List α), l.dropWhile p = c :: r → p c = false := by
  intro l
  induction l with
  | nil => intro c r h; simp at h
  | cons a as ih =>
    intro c r h
    rw [List.dropWhile_cons] at h
    split at h
    · exact ih c r h
    · rename_i hp
      injection h with h1 h2
      subst h1
      simpa using hp

/-- `dropWhile` is idempotent. -/
theorem dropWhile_dropWhile {α : Type} (p : α → Bool) (l : List α) :
    (l.dropWhile p).dropWhile p = l.dropWhile p := by
  induction l with
  | nil => rfl
  | cons a as ih =>
    rw [List.dropWhile_cons]
    split
    · exact ih
    · rename_i hp
      rw [List.dropWhile_cons, if_neg hp]

/-- `dropWhile` keeps a list whose head fails the predicate. -/
theorem dropWhile_eq_self_of_head {α : Type} (p : α → Bool) (c : α) (r : List α)
    (h : p c = false) : (c :: r).dropWhile p = c :: r := by
  rw [List.dropWhile_cons, if_neg (by simp [h])]

/-- `dropWhile` skips a prefix that satisfies the predicate throughout. -/
theorem dropWhile_append_of_all {α : Type} (p : α → Bool) :
    ∀ (w l : List α), (∀ c ∈ w, p c = true) → (w ++ l).dropWhile p = l.dropWhile p := by
  intro w
  induction w with
  | nil => intro l _; rfl
  | cons a as ih =>
    intro l hw
    rw [List.cons_append, List.dropWhile_cons, if_pos (by simp [hw a (by simp)])]
    exact ih l (fun c hc => hw c (by simp [hc]))

/-- `dropWhile` only ever shortens a list. -/
theorem length_dropWhile_le {α : Type} (p : α → Bool) :
    ∀ l : List α, (l.dropWhile p).length ≤ l.length := by
  intro l
  induction l with
  | nil => simp
  | cons c r ih => by_cases h : p c <;> simp [List.dropWhile_cons, h] <;> omega

/-- Strings with equal character data are equal. -/
theorem str_ext {s t : String} (h : s.data = t.data) : s = t :=
  congrArg String.mk h

/-- The whitespace-trimmed core, with a residue of trailing whitespace. -/
theorem ltrim_eq_trim_append (l : List Char) :
    ∃ w, (∀ c ∈ w, jsWs c = true) ∧ ltrim l = jsTrimL l ++ w := by
  refine ⟨((ltrim l).reverse.takeWhile jsWs).reverse, ?_, ?_⟩
  · intro c hc
    rw [List.mem_reverse] at hc
    exact List.mem_takeWhile_imp hc
  · rw [show jsTrimL l ++ ((ltrim l).reverse.takeWhile jsWs).reverse =
        ((ltrim l).reverse.dropWhile jsWs).reverse ++
          ((ltrim l).reverse.takeWhile jsWs).reverse from rfl,
      ← List.reverse_append, List.takeWhile_append_dropWhile, List.reverse_reverse]

/-- Any list splits as leading whitespace, its trim, and trailing whitespace. -/
theorem trim_decomp (l : List Char) :
    ∃ w1 w2, (∀ c ∈ w1, jsWs c = true) ∧ (∀ c ∈ w2, jsWs c = true) ∧
      l = w1 ++ (jsTrimL l ++ w2) := by
  obtain ⟨w2, hw2, hl⟩ := ltrim_eq_trim_append l
  refine ⟨l.takeWhile jsWs, w2, ?_, hw2, ?_⟩
  · intro c hc; exact List.mem_takeWhile_imp hc
  · calc l = l.takeWhile jsWs ++ l.dropWhile jsWs :=
          (List.takeWhile_append_dropWhile jsWs l).symm
      _ = l.takeWhile jsWs ++ (jsTrimL l ++ w2) := by
          rw [show l.dropWhile jsWs = ltrim l from rfl, hl]

/-- A trimmed list does not start with whitespace. -/
theorem jsTrimL_head_false (l : List Char) (c : Char) (r : List Char)
    (h : jsTrimL l = c :: r) : jsWs c = false := by
  obtain ⟨w, _, hl⟩ := ltrim_eq_trim_append l
  have h2 : ltrim l = c :: (r ++ w) := by rw [hl, h]; simp
  exact dropWhile_head_false jsWs l c (r ++ w) h2

/-- The reverse of the trim is the back-trim of the front-trim. -/
theorem jsTrimL_reverse (l : List Char) :
    (jsTrimL l).reverse = (ltrim l).reverse.dropWhile jsWs := by
  simp [jsTrimL]

/-- A trimmed list has no leading whitespace to drop. -/
theorem jsTrimL_ltrim (l : List Char) : ltrim (jsTrimL l) = jsTrimL l := by
  cases h : jsTrimL l with
  | nil => rfl
  | cons c r => exact dropWhile_eq_self_of_head jsWs c r (jsTrimL_head_false l c r h)

/-- `trim` on character lists is idempotent. -/
theorem jsTrimL_idem (l : List Char) : jsTrimL (jsTrimL l) = jsTrimL l := by
  show ((ltrim (jsTrimL l)).reverse.dropWhile jsWs).reverse = jsTrimL l
  rw [jsTrimL_ltrim, jsTrimL_reverse, dropWhile_dropWhile, ← jsTrimL_reverse,
    List.reverse_reverse]

/-- `String.prototype.trim` is idempotent. -/
theorem jsTrim_idem (s : String) : jsTrim (jsTrim s) = jsTrim s := by
  show String.mk (jsTrimL (jsTrimL s.data)) = String.mk (jsTrimL s.data)
  rw [jsTrimL_idem]

/-! ## Unfolding lemmas for the service operations -/

/-- `sanitize` on a nonempty string is `sanitizeString`. -/
theorem sanitize_str_ok {s : String} {r : SanitizeResult}
    (h : sanitize (.str s) = .ok r) : sanitizeString s = .ok r := by
  by_cases hs : s = ""
  · subst hs; simp [sanitize, validateInput] at h
  · simpa [sanitize, validateInput, hs] using h

/-- Inversion of a successful `sanitizeString`. -/
theorem sanitizeString_ok_inv {s : String} {r : SanitizeResult}
    (h : sanitizeString s = .ok r) :
    r.cleanedString = transformStages s ∧
    jsonParse (transformStages s) = some r.parsed ∧
    r.original = .str s ∧ r.wasAlreadyParsed = false ∧ r.wasRepaired = none := by
  unfold sanitizeString at h
  cases hp : parseJSON (transformStages s) with
  | error e => rw [hp] at h; simp [Except.map] at h
  | ok v =>
    rw [hp] at h
    simp only [Except.map, Except.ok.injEq] at h
    subst h
    refine ⟨rfl, ?_, rfl, rfl, rfl⟩
    unfold parseJSON at hp
    cases hj : jsonParse (transformStages s) with
    | none => rw [hj] at hp; simp [Option.elim] at hp
    | some w =>
      rw [hj] at hp
      simp only [Option.elim, Except.ok.injEq] at hp
      rw [hp]

/-- A successful `sanitizeString` for a nonempty input makes `sanitize` succeed. -/
theorem sanitize_str_of_sanitizeString {s : String} {r : SanitizeResult}
    (hs : s ≠ "") (h : sanitizeString s = .ok r) : sanitize (.str s) = .ok r := by
  simpa [sanitize, validateInput, hs] using h

/-- `validateInput` passes any nonempty string. -/
theorem validateInput_str {s : String} (hs : s ≠ "") : validateInput (.str s) = none := by
  simp [validateInput, hs]

/-! ## Claim C1 -/

/-- **C1** (code bug): the claim — and the repository's own test
`should handle invalid JSON string using jsonrepair fallback` — say that when
the fully-transformed text fails the strict parse, `sanitize` attempts a
control-character escape pass and the heuristic repair routine (on the
transformed and on the original text) before raising a parse error, so that
recoverable inputs succeed.  In the code, `sanitizeString` raises the parse
error immediately with no fallback of any kind: on the test's own input
`{"invalid": json}` it throws, and on `{name: "John"}` — which the heuristic
repair routine provably recovers — it throws as well. -/
theorem C1_sanitize_has_no_fallback :
    sanitize (.str "\x7b\"invalid\": json\x7d") = .error (.parseFailure "\x7b\"invalid\": json\x7d") ∧
    sanitize (.str "\x7bname: \"John\"\x7d") = .error (.parseFailure "\x7bname: \"John\"\x7d") ∧
    jsonParse (basicJsonRepair "\x7bname: \"John\"\x7d") = some (.obj [("name", .str "John")]) :=
  ⟨rfl, rfl, rfl⟩

/-! ## Claim C2 -/

/-- **C2** (counterexample): on the single line `{"url": "https://example.com"}`
there are three — an odd number of — unescaped double quotes before the `//`,
so the claim says the line is left untouched and the URL string value is
preserved verbatim by `sanitize`.  The code's `removeComments` strips from the
`//` to the end of the line regardless, and `sanitize` then fails on the
mangled text. -/
theorem C2_counterexample :
    removeComments "\x7b\"url\": \"https://example.com\"\x7d" = "\x7b\"url\": \"https:" ∧
    sanitize (.str "\x7b\"url\": \"https://example.com\"\x7d") =
      .error (.parseFailure "\x7b\"url\": \"https:") :=
  ⟨rfl, rfl⟩

/-! ## Claim C4 -/

/-- **C4** (counterexample): `"hi"` is strictly valid JSON (a string literal),
already trimmed, and contains no BOM, no backtick and no slash — hence no
markdown fence and no comment syntax.  The claim says `sanitize` succeeds with
`cleanedString = "\"hi\"".trim()`; in fact the double-encoding unwrap stage
strips the quotes and `sanitize` fails to parse the bare word `hi`. -/
theorem C4_counterexample :
    jsonParse "\"hi\"" = some (.str "hi") ∧
    jsTrim "\"hi\"" = "\"hi\"" ∧
    ("\"hi\"".data.all fun c => !(c = '﻿') && !(c = '`') && !(c = '/')) = true ∧
    sanitize (.str "\"hi\"") = .error (.parseFailure "hi") :=
  ⟨rfl, rfl, rfl, rfl⟩

/-! ## Claim C5 -/

/-- **C5** (counterexample): sanitizing `"\"hello\""` succeeds with
`cleanedString = "\"hello\""`, but sanitizing that `cleanedString` fails —
the double-encoding unwrap destroys the string literal — so
`sanitize(sanitize(s).cleanedString)` neither succeeds nor preserves the
parsed value, contradicting the claimed idempotence. -/
theorem C5_counterexample :
    sanitize (.str "\"\\\"hello\\\"\"") =
      .ok ⟨"\"hello\"", .str "hello", .str "\"\\\"hello\\\"\"", false, none⟩ ∧
    sanitize (.str "\"hello\"") = .error (.parseFailure "hello") :=
  ⟨rfl, rfl⟩

/-- **C5 (amended).** Idempotence holds for every successfully sanitized
string whose `cleanedString` is left fixed by the transform stages — in
particular `cleanedString` must not itself be a double-quoted JSON string
literal, which the double-encoding unwrap would destroy (see the
counterexample): then the second run succeeds and returns the same parsed
value. -/
theorem C5_amended_idempotence (s : String) (r : SanitizeResult)
    (h : sanitize (.str s) = .ok r)
    (hfix : transformStages r.cleanedString = r.cleanedString) :
    sanitize (.str r.cleanedString) =
      .ok ⟨r.cleanedString, r.parsed, .str r.cleanedString, false, none⟩ := by
  obtain ⟨hc, hp, -, -, -⟩ := sanitizeString_ok_inv (sanitize_str_ok h)
  have hparse : jsonParse r.cleanedString = some r.parsed := by rw [hc]; exact hp
  have hne : r.cleanedString ≠ "" := by
    intro h0
    rw [h0, show jsonParse "" = none from rfl] at hparse
    exact Option.noConfusion hparse
  apply sanitize_str_of_sanitizeString hne
  unfold sanitizeString parseJSON
  rw [hfix, hparse]
  rfl

/-- Witness for the amended C5 at the concrete input `{"a": 1}`. -/
theorem C5_amended_witness :
    sanitize (.str "\x7b\"a\": 1\x7d") =
      .ok ⟨"\x7b\"a\": 1\x7d", .obj [("a", .num "1")], .str "\x7b\"a\": 1\x7d", false, none⟩ ∧
    sanitize (.str "\x7b\"a\": 1\x7d") =
      .ok ⟨"\x7b\"a\": 1\x7d", .obj [("a", .num "1")], .str "\x7b\"a\": 1\x7d", false, none⟩ :=
  ⟨rfl, C5_amended_idempotence "\x7b\"a\": 1\x7d"
    ⟨"\x7b\"a\": 1\x7d", .obj [("a", .num "1")], .str "\x7b\"a\": 1\x7d", false, none⟩ rfl rfl⟩

/-! ## Claim C6 -/

/-- **C6.** `sanitize` on `null`, `undefined` and `''` fails with the
invalid-input error; on non-string primitives with the unsupported-type
error; `repair` on every non-string input fails with the type-mismatch
error.  All failures are `Except.error`, so no `SanitizeResult` is produced
in any of these cases. -/
theorem C6_error_cases :
    sanitize .jsNull = .error .invalidInput ∧
    sanitize .jsUndefined = .error .invalidInput ∧
    sanitize (.str "") = .error .invalidInput ∧
    sanitize (.number 123) = .error .unsupportedType ∧
    sanitize (.boolean true) = .error .unsupportedType ∧
    (∀ n : Int, repair (.number n) = .error .typeMismatch) ∧
    (∀ b : Bool, repair (.boolean b) = .error .typeMismatch) ∧
    repair .jsNull = .error .typeMismatch ∧
    repair .jsUndefined = .error .typeMismatch ∧
    (∀ v : Json, repair (.object v) = .error .typeMismatch) :=
  ⟨rfl, rfl, rfl, rfl, rfl, fun _ => rfl, fun _ => rfl, rfl, rfl, fun _ => rfl⟩

/-! ## Claim C8 -/

/-- **C8** (counterexample): the trimmed input `\` does not begin with `[`,
`{` or `"`, so the heuristic routine wraps it in quotes — but it escapes only
double quotes, not backslashes, producing the invalid literal `"\"`; `repair`
then fails instead of succeeding as the claim requires for every such
input. -/
theorem C8_counterexample :
    startsJsonLike (jsTrim "\\").data = false ∧
    repair (.str "\\") = .error (.repairFailure .syntaxError (.parseFailure "\\")) :=
  ⟨rfl, rfl⟩

/-! ## Claim C9 -/

/-- **C9.** When the heuristic-repair-then-parse step fails, `repair` falls
back to the Normalizer string path on the original input and returns its
result unchanged — with no `wasRepaired` field — and if that also fails it
raises a single aggregate error carrying both the native parse error and the
sanitization error. -/
theorem C9_repair_fallback (s : String)
    (hfail : jsonParse (basicJsonRepair s) = none) :
    (∀ r, sanitizeString s = .ok r → repair (.str s) = .ok r ∧ r.wasRepaired = none) ∧
    (∀ e, sanitizeString s = .error e →
      repair (.str s) = .error (.repairFailure .syntaxError e)) := by
  have hs : s ≠ "" := by
    intro h0
    rw [h0, show jsonParse (basicJsonRepair "") = some (.str "") from rfl] at hfail
    exact Option.noConfusion hfail
  constructor
  · intro r hok
    refine ⟨?_, (sanitizeString_ok_inv hok).2.2.2.2⟩
    show repairStr s = .ok r
    unfold repairStr
    rw [validateInput_str hs, hfail, hok]
    rfl
  · intro e herr
    show repairStr s = .error (.repairFailure .syntaxError e)
    unfold repairStr
    rw [validateInput_str hs, hfail, herr]
    rfl

/-- Witness for C9 at a fenced input: the heuristic repair output does not
parse, and `repair` returns the Normalizer's successful result unchanged. -/
theorem C9_witness :
    jsonParse (basicJsonRepair "```json\n\x7b\"a\": 1\x7d\n```") = none ∧
    repair (.str "```json\n\x7b\"a\": 1\x7d\n```") =
      .ok ⟨"\x7b\"a\": 1\x7d", .obj [("a", .num "1")], .str "```json\n\x7b\"a\": 1\x7d\n```",
        false, none⟩ :=
  ⟨rfl, ((C9_repair_fallback "```json\n\x7b\"a\": 1\x7d\n```" rfl).1 _ rfl).1⟩

/-! ## Claim C10 -/

/-- **C10.** Every successful `sanitize` of a string returns a
`cleanedString` equal to its own trim: the final transform stage is a trim
and the parse step does not modify the text. -/
theorem C10_cleanedString_trimmed (s : String) (r : SanitizeResult)
    (h : sanitize (.str s) = .ok r) : jsTrim r.cleanedString = r.cleanedString := by
  rw [(sanitizeString_ok_inv (sanitize_str_ok h)).1]
  unfold transformStages
  exact jsTrim_idem _

/-- Witness for C10 at the padded input `  {"a": 1}  `. -/
theorem C10_witness :
    sanitize (.str "  \x7b\"a\": 1\x7d  ") =
      .ok ⟨"\x7b\"a\": 1\x7d", .obj [("a", .num "1")], .str "  \x7b\"a\": 1\x7d  ", false, none⟩ ∧
    jsTrim "\x7b\"a\": 1\x7d" = "\x7b\"a\": 1\x7d" :=
  ⟨rfl, C10_cleanedString_trimmed "  \x7b\"a\": 1\x7d  "
    ⟨"\x7b\"a\": 1\x7d", .obj [("a", .num "1")], .str "  \x7b\"a\": 1\x7d  ", false, none⟩ rfl⟩


/-! ## Behavior of the comment-stripping scanners -/

/-- An adjacent pair in the tail is an adjacent pair in the whole. -/
theorem hasTwo_tail {a b c : Char} {l : List Char}
    (h : hasTwo a b (c :: l) = false) : hasTwo a b l = false := by
  cases l with
  | nil => rfl
  | cons y r =>
    rw [hasTwo] at h
    simp only [Bool.or_eq_false_iff] at h
    exact h.2

theorem sbGo_noop : ∀ (f : Nat) (l : List Char), hasTwo '/' '*' l = false → sbGo f l = l := by
  intro f l
  induction f, l using sbGo.induct with
  | case1 l => intro _; simp [sbGo]
  | case2 t ht =>
    intro _
    cases t with
    | zero => exact absurd rfl ht
    | succ t => simp [sbGo]
  | case3 fuel rest r hdrop ih => intro h; simp [hasTwo] at h
  | case4 fuel rest hdrop => intro h; simp [hasTwo] at h
  | case5 fuel c rest hside ih =>
    intro h
    have ih2 := ih (hasTwo_tail h)
    rw [sbGo.eq_def]
    split
    all_goals simp_all

theorem stripBlockComments_noop (l : List Char) (h : hasTwo '/' '*' l = false) :
    stripBlockComments l = l := sbGo_noop l.length l h

theorem slGo_noop : ∀ (f : Nat) (l : List Char), hasTwo '/' '/' l = false → slGo f l = l := by
  intro f l
  induction f, l using slGo.induct with
  | case1 l => intro _; simp [slGo]
  | case2 t ht =>
    intro _
    cases t with
    | zero => exact absurd rfl ht
    | succ t => simp [slGo]
  | case3 fuel rest ih => intro h; simp [hasTwo] at h
  | case4 fuel c rest hside ih =>
    intro h
    have ih2 := ih (hasTwo_tail h)
    rw [slGo.eq_def]
    split
    all_goals simp_all

theorem slGo_step_comment (f : Nat) (rest : List Char) :
    slGo (f + 1) ('/' :: '/' :: rest) = slGo f (rest.dropWhile (fun c => !isLineTerm c)) := rfl

theorem slGo_step_cons (f : Nat) (c : Char) (rest : List Char)
    (hside : ∀ r2, c = '/' → rest = '/' :: r2 → False) :
    slGo (f + 1) (c :: rest) = c :: slGo f rest := by
  rw [slGo.eq_def]
  split
  all_goals simp_all

theorem slGo_big : ∀ (f : Nat), ∀ l : List Char, l.length ≤ f → slGo f l = slGo l.length l := by
  intro f
  induction f using Nat.strong_induction_on with
  | _ f ih =>
    intro l hl
    match l with
    | [] =>
      cases f with
      | zero => rfl
      | succ f => simp [slGo]
    | c :: rest =>
      have hf : ∃ g, f = g + 1 := by
        cases f
        · simp at hl
        · exact ⟨_, rfl⟩
      obtain ⟨g, rfl⟩ := hf
      by_cases hc : ∃ r2, c = '/' ∧ rest = '/' :: r2
      · obtain ⟨r2, rfl, rfl⟩ := hc
        rw [slGo_step_comment g r2]
        rw [show ('/' :: '/' :: r2).length = (r2.length + 1) + 1 from by simp]
        rw [slGo_step_comment (r2.length + 1) r2]
        have hd := length_dropWhile_le (fun c => !isLineTerm c) r2
        simp only [List.length_cons] at hl
        rw [ih g (by omega) _ (by omega), ih (r2.length + 1) (by omega) _ (by omega)]
      · have hside : ∀ r2, c = '/' → rest = '/' :: r2 → False :=
          fun r2 h1 h2 => hc ⟨r2, h1, h2⟩
        rw [slGo_step_cons g c rest hside,
          show (c :: rest).length = rest.length + 1 from by simp,
          slGo_step_cons rest.length c rest hside]
        simp only [List.length_cons] at hl
        rw [ih g (by omega) rest (by omega)]

theorem slGo_comment : ∀ (a : List Char) (f : Nat) (b c : List Char),
    hasTwo '/' '/' (a ++ ['/']) = false →
    (∀ x ∈ b, isLineTerm x = false) →
    (a ++ '/' :: '/' :: (b ++ '\n' :: c)).length ≤ f →
    slGo f (a ++ '/' :: '/' :: (b ++ '\n' :: c)) = a ++ '\n' :: stripLineComments c := by
  intro a
  induction a with
  | nil =>
    intro f b c h1 h2 hf
    simp only [List.nil_append] at *
    simp only [List.length_cons, List.length_append] at hf
    have hf2 : ∃ g, f = g + 1 := by
      cases f
      · omega
      · exact ⟨_, rfl⟩
    obtain ⟨g, rfl⟩ := hf2
    rw [slGo_step_comment]
    rw [dropWhile_append_of_all _ b _ (fun x hx => by simp [h2 x hx])]
    rw [show List.dropWhile (fun c => !isLineTerm c) ('\n' :: c) = '\n' :: c from
      dropWhile_eq_self_of_head _ _ _ (by simp [isLineTerm])]
    have hf3 : ∃ g2, g = g2 + 1 := by
      cases g
      · omega
      · exact ⟨_, rfl⟩
    obtain ⟨g2, rfl⟩ := hf3
    rw [slGo_step_cons _ _ _ (fun r2 hx _ => by simp at hx)]
    rw [slGo_big g2 c (by omega)]
    rfl
  | cons x a2 ih =>
    intro f b c h1 h2 hf
    simp only [List.length_cons, List.length_append, List.cons_append] at hf
    have hf2 : ∃ g, f = g + 1 := by
      cases f
      · omega
      · exact ⟨_, rfl⟩
    obtain ⟨g, rfl⟩ := hf2
    have hside : ∀ r2, x = '/' → (a2 ++ '/' :: '/' :: (b ++ '\n' :: c)) = '/' :: r2 → False := by
      intro r2 hx hr
      cases a2 with
      | nil =>
        subst hx
        simp [hasTwo] at h1
      | cons y a3 =>
        injection hr with hy _
        subst hx
        subst hy
        simp [hasTwo] at h1
    rw [show (x :: a2) ++ '/' :: '/' :: (b ++ '\n' :: c) =
        x :: (a2 ++ '/' :: '/' :: (b ++ '\n' :: c)) from rfl]
    rw [slGo_step_cons g x _ hside]
    have h1b : hasTwo '/' '/' (a2 ++ ['/']) = false := hasTwo_tail (l := a2 ++ ['/']) h1
    rw [ih g b c h1b h2 (by simp only [List.length_cons, List.length_append] at *; omega)]
    rfl

/-- **C2 (amended).** -/
theorem C2_amended_unconditional_strip (a b c : List Char)
    (h1 : hasTwo '/' '/' (a ++ ['/']) = false)
    (h2 : ∀ x ∈ b, isLineTerm x = false)
    (h3 : hasTwo '/' '*' (a ++ '/' :: '/' :: (b ++ '\n' :: c)) = false) :
    removeComments (String.mk (a ++ '/' :: '/' :: (b ++ '\n' :: c))) =
      String.mk (a ++ '\n' :: stripLineComments c) := by
  unfold removeComments
  rw [show (String.mk (a ++ '/' :: '/' :: (b ++ '\n' :: c))).data =
      a ++ '/' :: '/' :: (b ++ '\n' :: c) from rfl]
  rw [show stripBlockComments (a ++ '/' :: '/' :: (b ++ '\n' :: c)) =
      a ++ '/' :: '/' :: (b ++ '\n' :: c) from stripBlockComments_noop _ h3]
  rw [show stripLineComments (a ++ '/' :: '/' :: (b ++ '\n' :: c)) =
      slGo (a ++ '/' :: '/' :: (b ++ '\n' :: c)).length
        (a ++ '/' :: '/' :: (b ++ '\n' :: c)) from rfl]
  rw [slGo_comment a _ b c h1 h2 le_rfl]

/-- Witness for amended C2. -/
theorem C2_amended_witness :
    hasTwo '/' '/' ("\x7b\"u\": \"".data ++ ['/']) = false ∧
    (∀ x ∈ "x".data, isLineTerm x = false) ∧
    removeComments (String.mk ("\x7b\"u\": \"".data ++ '/' :: '/' ::
        ("x".data ++ '\n' :: "\"\x7d".data))) =
      String.mk ("\x7b\"u\": \"".data ++ '\n' :: stripLineComments "\"\x7d".data) :=
  ⟨rfl, by decide, C2_amended_unconditional_strip _ _ _ rfl (by decide) rfl⟩


theorem stripFenceJson_noop (l : List Char) (h : l.head? ≠ some '`') :
    stripFenceJson l = l := by
  rw [stripFenceJson.eq_def]
  split
  · simp at h
  · rfl

theorem stripFenceBare_noop (l : List Char) (h : l.head? ≠ some '`') :
    stripFenceBare l = l := by
  rw [stripFenceBare.eq_def]
  split
  · simp at h
  · rfl

theorem hasCommaClose_tail {c : Char} {l : List Char}
    (h : hasCommaClose (c :: l) = false) : hasCommaClose l = false := by
  by_cases hc : c = ','
  · subst hc
    rw [show hasCommaClose (',' :: l) =
        (match l.dropWhile jsWs with
         | '}' :: _ => true
         | ']' :: _ => true
         | _ => hasCommaClose l) from rfl] at h
    split at h
    · exact Bool.noConfusion h
    · exact Bool.noConfusion h
    · exact h
  · have he : hasCommaClose (c :: l) = hasCommaClose l := by
      rw [hasCommaClose.eq_def]
      split
      · rename_i heq
        injection heq with h1 h2
        exact absurd h1 hc
      · rename_i hside heq
        injection heq with h1 h2
        rw [h2]
      · rename_i heq
        exact absurd heq (by simp)
    rw [← he]
    exact h

theorem jsTrim_removeBOM (s : String) : jsTrim (removeBOM s) = jsTrim s := by
  unfold removeBOM
  split
  · rename_i c rest heq
    split
    · rename_i hc
      subst hc
      show String.mk (jsTrimL rest) = String.mk (jsTrimL s.data)
      rw [heq]
      show String.mk (jsTrimL rest) = String.mk (jsTrimL ('﻿' :: rest))
      unfold jsTrimL ltrim
      rw [List.dropWhile_cons, if_pos (by decide)]
    · rfl
  · rfl

theorem stripFenceClose_noop (l : List Char) (h1 : jsTrimL l = l)
    (h2 : l.getLast? ≠ some '`') : stripFenceClose l = l := by
  have hrev : l.reverse.dropWhile jsWs = l.reverse := by
    conv_lhs => rw [← h1, jsTrimL_reverse, dropWhile_dropWhile]
    rw [← jsTrimL_reverse, h1]
  unfold stripFenceClose
  rw [hrev]
  split
  · rename_i r2 heq
    rw [show l.getLast? = l.reverse.head? from (List.head?_reverse l).symm, heq] at h2
    simp at h2
  · rfl

theorem handleDoublyEscapedJSON_noop (s : String) (h : s.data.head? ≠ some '"') :
    handleDoublyEscapedJSON s = s := by
  unfold handleDoublyEscapedJSON
  rw [if_neg]
  intro hq
  unfold startsWithQuote at hq
  split at hq
  · rename_i heq
    rw [heq] at h
    simp at h
  · exact Bool.noConfusion hq

theorem rtcGo_noop : ∀ (f : Nat) (l : List Char), hasCommaClose l = false → rtcGo f l = l := by
  intro f l
  induction f, l using rtcGo.induct with
  | case1 l => intro _; simp [rtcGo]
  | case2 t ht =>
    intro _
    cases t with
    | zero => exact absurd rfl ht
    | succ t => simp [rtcGo]
  | case3 fuel rest r2 heq ih =>
    intro h
    rw [show hasCommaClose (',' :: rest) =
        (match rest.dropWhile jsWs with
         | '}' :: _ => true
         | ']' :: _ => true
         | _ => hasCommaClose rest) from rfl] at h
    rw [heq] at h
    exact Bool.noConfusion h
  | case4 fuel rest r2 heq ih =>
    intro h
    rw [show hasCommaClose (',' :: rest) =
        (match rest.dropWhile jsWs with
         | '}' :: _ => true
         | ']' :: _ => true
         | _ => hasCommaClose rest) from rfl] at h
    rw [heq] at h
    exact Bool.noConfusion h
  | case5 fuel rest hb hs ih =>
    intro h
    have h2 : hasCommaClose rest = false := hasCommaClose_tail h
    rw [rtcGo.eq_def]
    split
    all_goals simp_all
    all_goals (rename_i hfe hpair; exact absurd hpair.1.symm (by assumption))
  | case6 fuel c rest hside ih =>
    intro h
    have h2 : hasCommaClose rest = false := hasCommaClose_tail h
    rw [rtcGo.eq_def]
    split
    all_goals simp_all

theorem removeTrailingCommas_noop (s : String) (h : hasCommaClose s.data = false) :
    removeTrailingCommas s = s := by
  unfold removeTrailingCommas rtcL
  rw [rtcGo_noop _ _ h]

theorem removeComments_noop (s : String) (h1 : hasTwo '/' '*' s.data = false)
    (h2 : hasTwo '/' '/' s.data = false) : removeComments s = s := by
  unfold removeComments stripLineComments stripBlockComments
  rw [sbGo_noop _ _ h1, slGo_noop _ _ h2]

theorem crlfToLf_noop : ∀ l : List Char, '\r' ∉ l → crlfToLf l = l := by
  intro l
  induction l using crlfToLf.induct with
  | case1 rest ih => intro h; simp at h
  | case2 c rest hside ih =>
    intro h
    have h2 : '\r' ∉ rest := fun hm => h (by simp [hm])
    rw [crlfToLf.eq_def]
    split
    all_goals simp_all
  | case3 => intro _; rfl

theorem normalizeLineEndings_noop (s : String) (h : '\r' ∉ s.data) :
    normalizeLineEndings s = s := by
  unfold normalizeLineEndings
  rw [crlfToLf_noop s.data h]
  have hmap : s.data.map (fun c => if c = '\r' then '\n' else c) = s.data := by
    conv_rhs => rw [← List.map_id s.data]
    exact List.map_congr_left (fun c hc => by
      simp only [id]
      rw [if_neg]
      intro h2
      exact h (h2 ▸ hc))
  rw [hmap]

/-! ## Claim C4, amended -/

/-- **C4 (amended).** For every string whose trimmed form is strictly valid
JSON, does not begin with a double quote (the double-encoding unwrap stage
would destroy a top-level string literal — see `C4_counterexample`), does not
begin or end with a backtick (no markdown fence), contains no `//` or `/*`
(no comment syntax), no carriage return, and no comma followed by whitespace
and a closing brace or bracket, `sanitize` succeeds with `cleanedString`
equal to the trimmed input and `wasAlreadyParsed = false`. -/
theorem C4_amended_valid_passthrough (s : String) (v : Json)
    (h1 : jsonParse (jsTrim s) = some v)
    (h2 : (jsTrim s).data.head? ≠ some '`')
    (h3 : (jsTrim s).data.getLast? ≠ some '`')
    (h4 : (jsTrim s).data.head? ≠ some '"')
    (h5 : hasTwo '/' '/' (jsTrim s).data = false)
    (h6 : hasTwo '/' '*' (jsTrim s).data = false)
    (h7 : '\r' ∉ (jsTrim s).data)
    (h8 : hasCommaClose (jsTrim s).data = false) :
    sanitize (.str s) = .ok ⟨jsTrim s, v, .str s, false, none⟩ := by
  have hidem : jsTrim (jsTrim s) = jsTrim s := jsTrim_idem s
  have hidemL : jsTrimL (jsTrim s).data = (jsTrim s).data := jsTrimL_idem s.data
  have hstages : transformStages s = jsTrim s := by
    unfold transformStages
    rw [jsTrim_removeBOM]
    have hfence : removeMarkdownFences (jsTrim s) = jsTrim s := by
      unfold removeMarkdownFences
      rw [stripFenceJson_noop _ h2, stripFenceBare_noop _ h2,
        stripFenceClose_noop _ hidemL h3]
      exact hidem
    rw [hfence, handleDoublyEscapedJSON_noop _ h4, removeTrailingCommas_noop _ h8,
      removeComments_noop _ h6 h5, normalizeLineEndings_noop _ h7]
    exact hidem
  have hs : s ≠ "" := by
    intro h0
    rw [h0, show jsTrim "" = "" from rfl, show jsonParse "" = none from rfl] at h1
    exact Option.noConfusion h1
  apply sanitize_str_of_sanitizeString hs
  unfold sanitizeString parseJSON
  rw [hstages, h1]
  rfl

/-- Witness for amended C4 at the padded input `  {"a": [1, 2]}  `. -/
theorem C4_amended_witness :
    jsonParse (jsTrim "  \x7b\"a\": [1, 2]\x7d  ") =
      some (.obj [("a", .arr [.num "1", .num "2"])]) ∧
    sanitize (.str "  \x7b\"a\": [1, 2]\x7d  ") =
      .ok ⟨jsTrim "  \x7b\"a\": [1, 2]\x7d  ", .obj [("a", .arr [.num "1", .num "2"])],
        .str "  \x7b\"a\": [1, 2]\x7d  ", false, none⟩ :=
  ⟨rfl, C4_amended_valid_passthrough "  \x7b\"a\": [1, 2]\x7d  "
    (.obj [("a", .arr [.num "1", .num "2"])]) rfl (by decide) (by decide) (by decide)
    rfl rfl (by decide) rfl⟩


/-! ## Whitespace counting: the heuristic passes never add whitespace -/

theorem wsCount_append (a b : List Char) : wsCount (a ++ b) = wsCount a + wsCount b := by
  unfold wsCount
  rw [List.filter_append, List.length_append]

theorem wsCount_cons (c : Char) (l : List Char) :
    wsCount (c :: l) = (if jsWs c then 1 else 0) + wsCount l := by
  unfold wsCount
  rw [List.filter_cons]
  split
  · simp
    omega
  · simp

theorem wsCount_all_ws (w : List Char) (h : ∀ c ∈ w, jsWs c = true) :
    wsCount w = w.length := by
  unfold wsCount
  rw [List.filter_eq_self.mpr h]

theorem wsCount_le_of_sublist {a b : List Char} (h : a.Sublist b) : wsCount a ≤ wsCount b :=
  (h.filter jsWs).length_le

theorem wsCount_dropWhile_le (p : Char → Bool) (l : List Char) :
    wsCount (l.dropWhile p) ≤ wsCount l :=
  wsCount_le_of_sublist (List.dropWhile_sublist p)

theorem dropToClose_wsCount : ∀ l r, dropToClose l = some r → wsCount r ≤ wsCount l := by
  intro l
  induction l using dropToClose.induct with
  | case1 r2 =>
    intro r h
    simp [dropToClose] at h
    subst h
    simp [wsCount_cons]
    omega
  | case2 c rest hside ih =>
    intro r h
    rw [dropToClose.eq_def] at h
    split at h
    · rename_i heq
      injection heq with h1 h2
      simp only [Option.some.injEq] at h
      subst h
      subst h2
      simp [wsCount_cons]
      omega
    · rename_i x rest2 heq
      injection heq with h1 h2
      subst h2
      have := ih r h
      rw [wsCount_cons]
      omega
    · rename_i heq
      exact absurd heq (by simp)
  | case3 => intro r h; simp [dropToClose] at h

theorem splitAtApos_decomp : ∀ l mid r, splitAtApos l = some (mid, r) → l = mid ++ '\'' :: r := by
  intro l
  induction l using splitAtApos.induct with
  | case1 => intro mid r h; simp [splitAtApos] at h
  | case2 r2 =>
    intro mid r h
    simp only [splitAtApos, Option.some.injEq, Prod.mk.injEq] at h
    obtain ⟨rfl, rfl⟩ := h
    rfl
  | case3 c r2 hside ih =>
    intro mid r h
    rw [splitAtApos.eq_def] at h
    split at h
    · rename_i heq
      exact absurd heq (by simp)
    · rename_i rr heq
      injection heq with h1 h2
      exact absurd h1 hside
    · rename_i x rr heq
      injection heq with h1 h2
      subst h1
      subst h2
      cases hsp : splitAtApos r2 with
      | none => rw [hsp] at h; simp at h
      | some p =>
        rw [hsp] at h
        simp only [Option.map_some', Option.some.injEq, Prod.mk.injEq] at h
        obtain ⟨h3, rfl⟩ := h
        subst h3
        rw [ih p.1 p.2 hsp]
        rfl

theorem sbGo_wsCount : ∀ (f : Nat) (l : List Char), wsCount (sbGo f l) ≤ wsCount l := by
  intro f l
  induction f, l using sbGo.induct with
  | case1 l => simp [sbGo]
  | case2 t ht =>
    cases t with
    | zero => exact absurd rfl ht
    | succ t => simp [sbGo]
  | case3 fuel rest r hdrop ih =>
    have hd := dropToClose_wsCount rest r hdrop
    have hstep : sbGo (fuel + 1) ('/' :: '*' :: rest) = sbGo fuel r := by
      rw [sbGo.eq_def]
      simp [hdrop]
    calc wsCount (sbGo (fuel + 1) ('/' :: '*' :: rest)) = wsCount (sbGo fuel r) := by rw [hstep]
      _ ≤ wsCount r := ih
      _ ≤ wsCount ('/' :: '*' :: rest) := by simp only [wsCount_cons]; omega
  | case4 fuel rest hdrop =>
    have : sbGo (fuel + 1) ('/' :: '*' :: rest) = '/' :: '*' :: rest := by
      rw [sbGo.eq_def]
      simp [hdrop]
    rw [this]
  | case5 fuel c rest hside ih =>
    have hstep : sbGo (fuel + 1) (c :: rest) = c :: sbGo fuel rest := by
      rw [sbGo.eq_def]
      split
      all_goals simp_all
    rw [hstep]
    simp only [wsCount_cons]
    omega

theorem slGo_wsCount : ∀ (f : Nat) (l : List Char), wsCount (slGo f l) ≤ wsCount l := by
  intro f l
  induction f, l using slGo.induct with
  | case1 l => simp [slGo]
  | case2 t ht =>
    cases t with
    | zero => exact absurd rfl ht
    | succ t => simp [slGo]
  | case3 fuel rest ih =>
    have hd := wsCount_dropWhile_le (fun c => !isLineTerm c) rest
    calc wsCount (slGo (fuel + 1) ('/' :: '/' :: rest))
        = wsCount (slGo fuel (rest.dropWhile (fun c => !isLineTerm c))) := rfl
      _ ≤ wsCount (rest.dropWhile (fun c => !isLineTerm c)) := ih
      _ ≤ wsCount ('/' :: '/' :: rest) := by simp only [wsCount_cons]; omega
  | case4 fuel c rest hside ih =>
    rw [slGo_step_cons fuel c rest hside]
    simp only [wsCount_cons]
    omega

theorem escapeQuotes_wsCount : ∀ l : List Char, wsCount (escapeQuotes l) = wsCount l := by
  intro l
  induction l with
  | nil => rfl
  | cons c rest ih =>
    rw [escapeQuotes, wsCount_append, ih, wsCount_cons]
    congr 1
    split
    · rename_i hq
      subst hq
      decide
    · by_cases hw : jsWs c <;> simp [wsCount, List.filter_cons, hw]

theorem sqGo_wsCount : ∀ (f : Nat) (l : List Char), wsCount (sqGo f l) ≤ wsCount l := by
  intro f l
  induction f, l using sqGo.induct with
  | case1 l => simp [sqGo]
  | case2 t ht =>
    cases t with
    | zero => exact absurd rfl ht
    | succ t => simp [sqGo]
  | case3 fuel rest mid r2 heq ih =>
    have hdec := splitAtApos_decomp rest mid r2 heq
    have hstep : sqGo (fuel + 1) ('\'' :: rest) = '"' :: (mid ++ '"' :: sqGo fuel r2) := by
      rw [sqGo.eq_def]
      simp [heq]
    rw [hstep, hdec]
    simp only [wsCount_cons, wsCount_append]
    have h1 : (if jsWs '"' then 1 else 0) = 0 := by decide
    have h2 : (if jsWs '\'' then 1 else 0) = 0 := by decide
    omega
  | case4 fuel rest heq =>
    have hstep : sqGo (fuel + 1) ('\'' :: rest) = '\'' :: rest := by
      rw [sqGo.eq_def]
      simp [heq]
    rw [hstep]
  | case5 fuel c rest hside ih =>
    have hstep : sqGo (fuel + 1) (c :: rest) = c :: sqGo fuel rest := by
      rw [sqGo.eq_def]
      split
      all_goals simp_all
    rw [hstep]
    simp only [wsCount_cons]
    omega

theorem icGo_wsCount : ∀ (f : Nat) (l : List Char), wsCount (icGo f l) ≤ wsCount l := by
  intro f l
  induction f, l using icGo.induct with
  | case1 l => simp [icGo]
  | case2 t ht =>
    cases t with
    | zero => exact absurd rfl ht
    | succ t => simp [icGo]
  | case3 fuel rest r2 heq hemp ih =>
    have hstep : icGo (fuel + 1) ('"' :: rest) = '"' :: icGo fuel rest := by
      rw [icGo.eq_def]
      simp [heq, hemp]
    rw [hstep]
    simp only [wsCount_cons]
    omega
  | case4 fuel rest r2 heq hemp ih =>
    have hstep : icGo (fuel + 1) ('"' :: rest) =
        '"' :: ',' :: ' ' :: '"' :: icGo fuel r2 := by
      rw [icGo.eq_def]
      simp [heq, hemp]
    rw [hstep]
    have hdec : rest = rest.takeWhile jsWs ++ '"' :: r2 := by
      conv_lhs => rw [← List.takeWhile_append_dropWhile jsWs rest]
      rw [heq]
    have htw : wsCount (rest.takeWhile jsWs) = (rest.takeWhile jsWs).length :=
      wsCount_all_ws _ (fun c hc => List.mem_takeWhile_imp hc)
    have hlen : 1 ≤ (rest.takeWhile jsWs).length := by
      cases hx : rest.takeWhile jsWs with
      | nil => rw [hx] at hemp; simp at hemp
      | cons a as => simp
    have hrest : wsCount rest = (rest.takeWhile jsWs).length + wsCount ('"' :: r2) := by
      conv_lhs => rw [hdec]
      rw [wsCount_append, htw]
    simp only [wsCount_cons]
    rw [hrest]
    simp only [wsCount_cons]
    have h1 : (if jsWs '"' then 1 else 0) = 0 := by decide
    have h2 : (if jsWs ',' then 1 else 0) = 0 := by decide
    have h3 : (if jsWs ' ' then 1 else 0) = 1 := by decide
    omega
  | case5 fuel rest hside ih =>
    have hstep : icGo (fuel + 1) ('"' :: rest) = '"' :: icGo fuel rest := by
      rw [icGo.eq_def]
      split
      all_goals try simp_all
      all_goals (rename_i hne hfe hpair; exact absurd hpair.1.symm hne)
    rw [hstep]
    simp only [wsCount_cons]
    omega
  | case6 fuel c rest hside ih =>
    have hstep : icGo (fuel + 1) (c :: rest) = c :: icGo fuel rest := by
      rw [icGo.eq_def]
      split
      all_goals simp_all
    rw [hstep]
    simp only [wsCount_cons]
    omega


theorem rtcGo_wsCount : ∀ (f : Nat) (l : List Char), wsCount (rtcGo f l) ≤ wsCount l := by
  intro f l
  induction f, l using rtcGo.induct with
  | case1 l => simp [rtcGo]
  | case2 t ht =>
    cases t with
    | zero => exact absurd rfl ht
    | succ t => simp [rtcGo]
  | case3 fuel rest r2 heq ih =>
    have hstep : rtcGo (fuel + 1) (',' :: rest) =
        rest.takeWhile jsWs ++ '\x7d' :: rtcGo fuel r2 := by
      rw [rtcGo.eq_def]
      simp [heq]
    have hdec : rest = rest.takeWhile jsWs ++ '\x7d' :: r2 := by
      conv_lhs => rw [← List.takeWhile_append_dropWhile jsWs rest]
      rw [heq]
    rw [hstep]
    conv_rhs => rw [hdec]
    simp only [wsCount_cons, wsCount_append]
    omega
  | case4 fuel rest r2 heq ih =>
    have hstep : rtcGo (fuel + 1) (',' :: rest) =
        rest.takeWhile jsWs ++ ']' :: rtcGo fuel r2 := by
      rw [rtcGo.eq_def]
      simp [heq]
    have hdec : rest = rest.takeWhile jsWs ++ ']' :: r2 := by
      conv_lhs => rw [← List.takeWhile_append_dropWhile jsWs rest]
      rw [heq]
    rw [hstep]
    conv_rhs => rw [hdec]
    simp only [wsCount_cons, wsCount_append]
    omega
  | case5 fuel rest hs1 hs2 ih =>
    have hstep : rtcGo (fuel + 1) (',' :: rest) = ',' :: rtcGo fuel rest := by
      rw [rtcGo.eq_def]
      split
      all_goals try simp_all
      all_goals (rename_i hne hfe hpair; exact absurd hpair.1.symm hne)
    rw [hstep]
    simp only [wsCount_cons]
    omega
  | case6 fuel c rest hside ih =>
    have hstep : rtcGo (fuel + 1) (c :: rest) = c :: rtcGo fuel rest := by
      rw [rtcGo.eq_def]
      split
      all_goals try simp_all
    rw [hstep]
    simp only [wsCount_cons]
    omega

theorem qbkGo_wsCount : ∀ (f : Nat) (l : List Char), wsCount (qbkGo f l) ≤ wsCount l := by
  intro f l
  induction f, l using qbkGo.induct with
  | case1 l => simp [qbkGo]
  | case2 t ht =>
    cases t with
    | zero => exact absurd rfl ht
    | succ t => simp [qbkGo]
  | case3 fuel c1 tl hc d r hdrop hid r5 hcolon ih =>
    have hstep : qbkGo (fuel + 1) (c1 :: tl) =
        c1 :: (tl.takeWhile jsWs ++
          '"' :: (d :: r.takeWhile isIdentChar ++ '"' :: ':' :: qbkGo fuel r5)) := by
      rw [qbkGo.eq_def]
      simp [hc, hdrop, hid, hcolon]
    have hdec1 : tl = tl.takeWhile jsWs ++ d :: r := by
      conv_lhs => rw [← List.takeWhile_append_dropWhile jsWs tl]
      rw [hdrop]
    have hdec3 : r.dropWhile isIdentChar =
        (r.dropWhile isIdentChar).takeWhile jsWs ++ ':' :: r5 := by
      conv_lhs => rw [← List.takeWhile_append_dropWhile jsWs (r.dropWhile isIdentChar)]
      rw [hcolon]
    have e1 : wsCount tl = wsCount (tl.takeWhile jsWs) + wsCount (d :: r) := by
      conv_lhs => rw [hdec1]
      rw [wsCount_append]
    have e2 : wsCount r =
        wsCount (r.takeWhile isIdentChar) + wsCount (r.dropWhile isIdentChar) := by
      conv_lhs => rw [← List.takeWhile_append_dropWhile isIdentChar r]
      rw [wsCount_append]
    have e3 : wsCount (r.dropWhile isIdentChar) =
        wsCount ((r.dropWhile isIdentChar).takeWhile jsWs) + wsCount (':' :: r5) := by
      conv_lhs => rw [hdec3]
      rw [wsCount_append]
    rw [hstep]
    simp only [wsCount_cons, wsCount_append]
    rw [e1]
    simp only [wsCount_cons]
    rw [e2, e3]
    simp only [wsCount_cons]
    have hq : (if jsWs '"' then 1 else 0) = 0 := by decide
    omega
  | case4 fuel c1 tl hc d r hdrop hid hside ih =>
    have hstep : qbkGo (fuel + 1) (c1 :: tl) = c1 :: qbkGo fuel tl := by
      rw [qbkGo.eq_def]
      simp only [hc, hdrop, hid]
      split
      all_goals try simp_all
    rw [hstep]
    simp only [wsCount_cons]
    omega
  | case5 fuel c1 tl hc d r hdrop hid ih =>
    have hstep : qbkGo (fuel + 1) (c1 :: tl) = c1 :: qbkGo fuel tl := by
      rw [qbkGo.eq_def]
      simp [hc, hdrop, hid]
    rw [hstep]
    simp only [wsCount_cons]
    omega
  | case6 fuel c1 tl hc hdrop ih =>
    have hstep : qbkGo (fuel + 1) (c1 :: tl) = c1 :: qbkGo fuel tl := by
      rw [qbkGo.eq_def]
      simp [hc, hdrop]
    rw [hstep]
    simp only [wsCount_cons]
    omega
  | case7 fuel c1 tl hc ih =>
    have hstep : qbkGo (fuel + 1) (c1 :: tl) = c1 :: qbkGo fuel tl := by
      rw [qbkGo.eq_def]
      simp [hc]
    rw [hstep]
    simp only [wsCount_cons]
    omega


/-- No pass of the heuristic repair routine adds whitespace: the output has
at most as many whitespace characters as the trimmed input. -/
theorem basicJsonRepair_wsCount (s : String) :
    wsCount (basicJsonRepair s).data ≤ wsCount (jsTrim s).data := by
  unfold basicJsonRepair
  dsimp only []
  split
  · show wsCount ('"' :: (escapeQuotes (jsTrim s).data ++ ['"'])) ≤ wsCount (jsTrim s).data
    simp only [wsCount_cons, wsCount_append, escapeQuotes_wsCount]
    have hq : (if jsWs '"' then 1 else 0) = 0 := by decide
    have hq2 : wsCount ([] : List Char) = 0 := rfl
    omega
  · show wsCount (rtcL (quoteBareKeys (insertCommas (singleToDouble
        (stripLineComments (stripBlockComments (jsTrim s).data)))))) ≤
      wsCount (jsTrim s).data
    unfold rtcL quoteBareKeys insertCommas singleToDouble stripLineComments stripBlockComments
    exact le_trans (rtcGo_wsCount _ _) (le_trans (qbkGo_wsCount _ _)
      (le_trans (icGo_wsCount _ _) (le_trans (sqGo_wsCount _ _)
        (le_trans (slGo_wsCount _ _) (sbGo_wsCount _ _)))))

/-- A string with no more whitespace than its own trim, and the same trim as
`jsTrim s`, IS that trim: the padding must be empty. -/
theorem eq_trim_of_wsCount_le (r s : String)
    (hws : wsCount r.data ≤ wsCount (jsTrim s).data)
    (htr : jsTrim r = jsTrim s) : r = jsTrim s := by
  obtain ⟨w1, w2, hw1, hw2, hdec⟩ := trim_decomp r.data
  have hts : (jsTrim r).data = jsTrimL r.data := rfl
  have hdata : (jsTrim r).data = (jsTrim s).data := by rw [htr]
  have hcount : wsCount r.data = w1.length + (wsCount (jsTrimL r.data) + w2.length) := by
    conv_lhs => rw [hdec]
    rw [wsCount_append, wsCount_append, wsCount_all_ws w1 hw1, wsCount_all_ws w2 hw2]
  have hJ : wsCount (jsTrimL r.data) = wsCount (jsTrim s).data := by rw [← hts, hdata]
  have h1 : w1.length = 0 ∧ w2.length = 0 := by omega
  have hw1nil : w1 = [] := List.length_eq_zero.mp h1.1
  have hw2nil : w2 = [] := List.length_eq_zero.mp h1.2
  apply str_ext
  rw [← hdata, hts]
  conv_lhs => rw [hdec]
  rw [hw1nil, hw2nil]
  simp


/-! ## Claim C7 -/

/-- **C7.** When the heuristic-repair-then-parse step of `repair` succeeds on
a (nonempty) string, the result carries
`wasRepaired = (repairedString !== input.trim())`, and that flag is `true`
exactly when the repaired text differs from the original input after trimming
both (the repair routine never adds whitespace, so equality of the trims
forces equality with with the trimmed input); in particular when the
heuristic routine returns the trimmed input unchanged, `wasRepaired` is
`false` with the same parsed value. -/
theorem C7_wasRepaired_iff_trim_changed (s : String) (v : Json)
    (hs : s ≠ "")
    (hok : jsonParse (basicJsonRepair s) = some v) :
    repair (.str s) = .ok ⟨basicJsonRepair s, v, .str s, false,
      some (basicJsonRepair s != jsTrim s)⟩ ∧
    ((basicJsonRepair s != jsTrim s) = true ↔
      jsTrim (basicJsonRepair s) ≠ jsTrim s) ∧
    (basicJsonRepair s = jsTrim s →
      repair (.str s) = .ok ⟨jsTrim s, v, .str s, false, some false⟩) := by
  have h1 : repair (.str s) = .ok ⟨basicJsonRepair s, v, .str s, false,
      some (basicJsonRepair s != jsTrim s)⟩ := by
    show repairStr s = _
    unfold repairStr
    rw [validateInput_str hs, hok]
    rfl
  refine ⟨h1, ⟨?_, ?_⟩, ?_⟩
  · intro hbne heq
    have hr : basicJsonRepair s = jsTrim s :=
      eq_trim_of_wsCount_le _ _ (basicJsonRepair_wsCount s) heq
    rw [hr] at hbne
    simp at hbne
  · intro hne
    rw [bne_iff_ne]
    intro heq2
    exact hne (by rw [heq2, jsTrim_idem])
  · intro hr
    rw [hr] at h1
    simpa using h1

/-- Witness for C7 at `{name: "John"}`: the heuristic routine quotes the bare
key, the parse succeeds, and `wasRepaired` is the comparison with the trimmed
input — here `true`, since the repaired text differs from it. -/
theorem C7_witness :
    "\x7bname: \"John\"\x7d" ≠ "" ∧
    jsonParse (basicJsonRepair "\x7bname: \"John\"\x7d") =
      some (.obj [("name", .str "John")]) ∧
    (basicJsonRepair "\x7bname: \"John\"\x7d" != jsTrim "\x7bname: \"John\"\x7d") = true ∧
    repair (.str "\x7bname: \"John\"\x7d") =
      .ok ⟨basicJsonRepair "\x7bname: \"John\"\x7d", .obj [("name", .str "John")],
        .str "\x7bname: \"John\"\x7d", false,
        some (basicJsonRepair "\x7bname: \"John\"\x7d" != jsTrim "\x7bname: \"John\"\x7d")⟩ :=
  ⟨by decide, rfl, rfl,
    (C7_wasRepaired_iff_trim_changed "\x7bname: \"John\"\x7d"
      (.obj [("name", .str "John")]) (by decide) rfl).1⟩


/-! ## Claim C8, amended: the quote-wrap parses back when it is safe -/

/-- Scanner step: a closing quote ends the string. -/
theorem pStrAux_step_close (acc r : List Char) :
    pStrAux acc ('"' :: r) = some (acc.reverse, r) := by
  delta pStrAux
  conv_lhs => whnf

/-- Scanner step: an escaped quote contributes a quote character. -/
theorem pStrAux_step_escq (acc r : List Char) :
    pStrAux acc ('\\' :: '"' :: r) = pStrAux ('"' :: acc) r := by
  delta pStrAux
  rfl

/-- Scanner step: a plain character (not a quote, not a backslash, not a raw
control character) is consumed verbatim. -/
theorem pStrAux_step_plain (acc r : List Char) (c : Char) (hq : ¬c = '"')
    (hb : ¬c = '\\') (hcc : 0x20 ≤ c.toNat) :
    pStrAux acc (c :: r) = pStrAux (c :: acc) r := by
  delta pStrAux
  conv_lhs => whnf
  cases h1 : instDecidableEqChar c '"' with
  | isTrue h2 => exact absurd h2 hq
  | isFalse h2 =>
    conv_lhs => whnf
    cases h3 : instDecidableEqChar c '\\' with
    | isTrue h4 => exact absurd h4 hb
    | isFalse h4 =>
      conv_lhs => whnf
      cases h5 : Nat.decLe 0x20 c.toNat with
      | isFalse h6 => exact absurd hcc h6
      | isTrue h6 => conv_lhs => whnf

/-- The string scanner undoes `escapeQuotes` on text free of backslashes and
raw control characters, consuming up to the closing quote. -/
theorem pStrAux_escapeQuotes : ∀ (t acc r : List Char),
    (∀ c ∈ t, ¬c = '\\' ∧ 0x20 ≤ c.toNat) →
    pStrAux acc (escapeQuotes t ++ '"' :: r) = some (acc.reverse ++ t, r) := by
  intro t
  induction t with
  | nil =>
    intro acc r h
    rw [show escapeQuotes [] ++ '"' :: r = '"' :: r from rfl, pStrAux_step_close]
    simp
  | cons c t2 ih =>
    intro acc r h
    have hc := h c (by simp)
    have ht2 : ∀ c ∈ t2, ¬c = '\\' ∧ 0x20 ≤ c.toNat := fun d hd => h d (by simp [hd])
    by_cases hq : c = '"'
    · subst hq
      have he : escapeQuotes ('"' :: t2) ++ '"' :: r =
          '\\' :: '"' :: (escapeQuotes t2 ++ '"' :: r) := by
        simp [escapeQuotes]
      rw [he, pStrAux_step_escq, ih ('"' :: acc) r ht2]
      simp
    · have he : escapeQuotes (c :: t2) ++ '"' :: r =
          c :: (escapeQuotes t2 ++ '"' :: r) := by
        simp [escapeQuotes, hq]
      rw [he, pStrAux_step_plain acc _ c hq hc.1 hc.2, ih (c :: acc) r ht2]
      simp

/-- Wrapping safe text in double quotes yields a parseable string literal
whose value is the original text. -/
theorem jsonParse_wrap (t : List Char)
    (h : ∀ c ∈ t, ¬c = '\\' ∧ 0x20 ≤ c.toNat) :
    jsonParse (String.mk ('"' :: (escapeQuotes t ++ ['"']))) =
      some (.str (String.mk t)) := by
  unfold jsonParse
  have hskip : skipWs ('"' :: (escapeQuotes t ++ ['"'])) =
      '"' :: (escapeQuotes t ++ ['"']) := by
    unfold skipWs
    rw [List.dropWhile_cons, if_neg (by decide)]
  obtain ⟨m, hm⟩ : ∃ m, 2 * ('"' :: (escapeQuotes t ++ ['"'])).length + 2 = m + 1 :=
    ⟨2 * ('"' :: (escapeQuotes t ++ ['"'])).length + 1, by omega⟩
  show (match pVal (2 * ('"' :: (escapeQuotes t ++ ['"'])).length + 2)
      (skipWs ('"' :: (escapeQuotes t ++ ['"']))) with
    | some (v, r) => if skipWs r = [] then some v else none
    | none => none) = some (.str (String.mk t))
  rw [hskip, hm]
  have hv : pVal (m + 1) ('"' :: (escapeQuotes t ++ ['"'])) =
      (pStr (escapeQuotes t ++ ['"'])).map (fun p => (Json.str p.1, p.2)) := rfl
  rw [hv]
  unfold pStr
  rw [pStrAux_escapeQuotes t [] [] h]
  simp [skipWs]

/-- **C8 (amended).** For every nonempty string whose trimmed text does not
begin (after optional whitespace) with `[`, `{` or `"`, the heuristic routine
wraps the trimmed text in double quotes, escaping only embedded double
quotes; provided the trimmed text contains no backslash and no raw control
character below U+0020, `repair` succeeds with the trimmed prose as the
parsed string value and `wasRepaired = some true`.  (With a backslash or a
control character the wrap can be invalid JSON and `repair` fails — see the
counterexample.) -/
theorem C8_amended_prose_wrap (s : String)
    (hs : s ≠ "")
    (hnj : startsJsonLike (jsTrim s).data = false)
    (hgood : ∀ c ∈ (jsTrim s).data, ¬c = '\\' ∧ 0x20 ≤ c.toNat) :
    basicJsonRepair s = String.mk ('"' :: (escapeQuotes (jsTrim s).data ++ ['"'])) ∧
    repair (.str s) =
      .ok ⟨String.mk ('"' :: (escapeQuotes (jsTrim s).data ++ ['"'])),
        .str (jsTrim s), .str s, false, some true⟩ := by
  have hbr : basicJsonRepair s =
      String.mk ('"' :: (escapeQuotes (jsTrim s).data ++ ['"'])) := by
    unfold basicJsonRepair
    dsimp only []
    rw [if_pos (by rw [hnj]; rfl)]
  have hparse : jsonParse (basicJsonRepair s) = some (.str (jsTrim s)) := by
    rw [hbr]
    exact jsonParse_wrap (jsTrim s).data hgood
  have hne : String.mk ('"' :: (escapeQuotes (jsTrim s).data ++ ['"'])) ≠ jsTrim s := by
    intro he
    have hsl : startsJsonLike (jsTrim s).data = true := by
      rw [← he]
      show startsJsonLike ('"' :: (escapeQuotes (jsTrim s).data ++ ['"'])) = true
      unfold startsJsonLike
      rw [List.dropWhile_cons, if_neg (by decide)]
      rfl
    rw [hnj] at hsl
    exact Bool.noConfusion hsl
  have h1 : repair (.str s) = .ok ⟨basicJsonRepair s, .str (jsTrim s), .str s, false,
      some (basicJsonRepair s != jsTrim s)⟩ := by
    show repairStr s = _
    unfold repairStr
    rw [validateInput_str hs, hparse]
    rfl
  refine ⟨hbr, ?_⟩
  rw [h1, hbr]
  have hb : (String.mk ('"' :: (escapeQuotes (jsTrim s).data ++ ['"'])) != jsTrim s)
      = true := by
    rw [bne_iff_ne]
    exact hne
  rw [hb]

/-- Witness for the amended C8 at the spec's own example `not json at all`. -/
theorem C8_amended_witness :
    ("not json at all" ≠ "") ∧
    startsJsonLike (jsTrim "not json at all").data = false ∧
    repair (.str "not json at all") =
      .ok ⟨"\"not json at all\"", .str "not json at all",
        .str "not json at all", false, some true⟩ :=
  ⟨by decide, rfl,
    (C8_amended_prose_wrap "not json at all" (by decide) rfl (by decide)).2⟩


/-! ## Number lexing: a complete lexeme is unaffected by a safe continuation -/

theorem takeWhile_head_false {α : Type} (p : α → Bool) (c : α) (r : List α)
    (h : p c = false) : (c :: r).takeWhile p = [] := by
  rw [List.takeWhile_cons, if_neg (by simp [h])]

theorem takeWhile_append_of_all {α : Type} (p : α → Bool) :
    ∀ (w l : List α), (∀ c ∈ w, p c = true) → (w ++ l).takeWhile p = w ++ l.takeWhile p := by
  intro w
  induction w with
  | nil => intro l h; simp
  | cons a w ih =>
    intro l h
    rw [List.cons_append, List.takeWhile_cons, if_pos (by simp [h a (by simp)])]
    rw [ih l (fun c hc => h c (by simp [hc]))]
    rfl

theorem numSafe_head {c : Char} {r : List Char} (h : numSafe (c :: r) = true) :
    c.isDigit = false ∧ ¬c = '.' ∧ ¬c = 'e' ∧ ¬c = 'E' := by
  simp [numSafe] at h
  exact ⟨h.1.1.1, h.1.1.2, h.1.2, h.2⟩

theorem tw_digits_nil (rest u : List Char)
    (hrest : ∀ c t, rest = c :: t → c.isDigit = false)
    (hu : rest = [] → numSafe u = true) :
    (rest ++ u).takeWhile Char.isDigit = [] := by
  cases hr : rest with
  | cons c t =>
    rw [List.cons_append]
    exact takeWhile_head_false _ _ _ (hrest c t hr)
  | nil =>
    rw [List.nil_append]
    cases hu2 : u with
    | nil => rfl
    | cons c t =>
      have h3 := numSafe_head (hu2 ▸ hu hr)
      exact takeWhile_head_false _ _ _ h3.1

theorem dw_digits_self (rest u : List Char)
    (hrest : ∀ c t, rest = c :: t → c.isDigit = false)
    (hu : rest = [] → numSafe u = true) :
    (rest ++ u).dropWhile Char.isDigit = rest ++ u := by
  cases hr : rest with
  | cons c t =>
    rw [List.cons_append]
    exact dropWhile_eq_self_of_head _ _ _ (hrest c t hr)
  | nil =>
    rw [List.nil_append]
    cases hu2 : u with
    | nil => rfl
    | cons c t =>
      have h3 := numSafe_head (hu2 ▸ hu hr)
      exact dropWhile_eq_self_of_head _ _ _ h3.1

theorem span_extend (ds rest u : List Char)
    (hds : ∀ c ∈ ds, c.isDigit = true)
    (hrest : ∀ c t, rest = c :: t → c.isDigit = false)
    (hu : rest = [] → numSafe u = true) :
    ((ds ++ rest) ++ u).span Char.isDigit = (ds, rest ++ u) := by
  rw [List.span_eq_take_drop, List.append_assoc]
  rw [takeWhile_append_of_all _ _ _ hds, dropWhile_append_of_all _ _ _ hds]
  rw [tw_digits_nil rest u hrest hu, dw_digits_self rest u hrest hu, List.append_nil]

theorem lexSign_extend (t u sgn l1 : List Char) (h : lexSign t = (sgn, l1))
    (hne : t ≠ []) : lexSign (t ++ u) = (sgn, l1 ++ u) := by
  cases t with
  | nil => exact absurd rfl hne
  | cons c t2 =>
    by_cases hc : c = '-'
    · subst hc
      rw [show lexSign ('-' :: t2) = (['-'], t2) from rfl] at h
      injection h with h1 h2
      subst h1
      subst h2
      rfl
    · have hrow : ∀ l2 : List Char, lexSign (c :: l2) = ([], c :: l2) := by
        intro l2
        rw [lexSign.eq_def]
        split
        · rename_i heq
          injection heq with heq1 heq2
          exact absurd heq1 hc
        · rfl
      rw [hrow t2] at h
      injection h with h1 h2
      subst h1
      subst h2
      rw [List.cons_append, hrow (t2 ++ u)]

theorem lexInt_extend (l1 u ip l2 : List Char) (h : lexInt l1 = some (ip, l2))
    (hu : l2 = [] → numSafe u = true) : lexInt (l1 ++ u) = some (ip, l2 ++ u) := by
  cases l1 with
  | nil =>
    rw [show lexInt [] = none from rfl] at h
    exact Option.noConfusion h
  | cons c t2 =>
    by_cases hc : c = '0'
    · subst hc
      rw [show lexInt ('0' :: t2) = some (['0'], t2) from rfl] at h
      injection h with h1
      injection h1 with h1 h2
      subst h1
      subst h2
      rfl
    · have hrow : ∀ l3 : List Char, lexInt (c :: l3) =
          if c.isDigit then some (c :: (l3.span Char.isDigit).1, (l3.span Char.isDigit).2)
          else none := by
        intro l3
        rw [lexInt.eq_def]
        split
        · rename_i heq
          injection heq with heq1 heq2
          exact absurd heq1 hc
        · rename_i hc0 heqe
          injection heqe with heq1 heq2
          subst heq1
          subst heq2
          rcases hsp3 : l3.span Char.isDigit with ⟨ds4, r4⟩
          rfl
        · rename_i heq
          exact absurd heq (by simp)
      rw [hrow t2] at h
      by_cases hd : c.isDigit
      · rw [if_pos hd] at h
        injection h with h1
        injection h1 with h1 h2
        have hsp : t2.span Char.isDigit =
            (t2.takeWhile Char.isDigit, t2.dropWhile Char.isDigit) :=
          List.span_eq_take_drop _ _
        have hip : ip = c :: t2.takeWhile Char.isDigit := by
          rw [← h1, hsp]
        have hl2 : l2 = t2.dropWhile Char.isDigit := by
          rw [← h2, hsp]
        have hdec : t2 = t2.takeWhile Char.isDigit ++ t2.dropWhile Char.isDigit :=
          (List.takeWhile_append_dropWhile _ _).symm
        rw [List.cons_append, hrow (t2 ++ u), if_pos hd]
        have hsp2 : (t2 ++ u).span Char.isDigit = (t2.takeWhile Char.isDigit, l2 ++ u) := by
          conv_lhs => rw [hdec]
          rw [hl2]
          exact span_extend _ _ _ (fun x hx => List.mem_takeWhile_imp hx)
            (fun x tt hxt => dropWhile_head_false _ _ _ _ hxt)
            (fun hnil => hu (by rw [hl2, hnil]))
        rw [hsp2, hip]
      · rw [if_neg hd] at h
        exact Option.noConfusion h

theorem lexFrac_extend (l2 u fp l3 : List Char) (h : lexFrac l2 = some (fp, l3))
    (hu : l3 = [] → numSafe u = true) : lexFrac (l2 ++ u) = some (fp, l3 ++ u) := by
  cases l2 with
  | nil =>
    rw [show lexFrac [] = some ([], []) from rfl] at h
    injection h with h1
    injection h1 with h1 h2
    subst h1
    subst h2
    cases hu2 : u with
    | nil => rfl
    | cons c t =>
      have h3 := numSafe_head (hu2 ▸ hu rfl)
      rw [lexFrac.eq_def]
      split
      · rename_i heq
        injection heq with heq1
        exact absurd heq1 h3.2.1
      · rfl
  | cons c t2 =>
    by_cases hc : c = '.'
    · subst hc
      have hfr : ∀ l4 : List Char, lexFrac ('.' :: l4) =
          (match l4.span Char.isDigit with
            | ([], _) => none
            | (ds, r2) => some ('.' :: ds, r2)) := fun _ => rfl
      rw [hfr t2] at h
      have hsp : t2.span Char.isDigit =
          (t2.takeWhile Char.isDigit, t2.dropWhile Char.isDigit) :=
        List.span_eq_take_drop _ _
      rw [hsp] at h
      cases htw : t2.takeWhile Char.isDigit with
      | nil =>
        rw [htw] at h
        exact Option.noConfusion h
      | cons d ds2 =>
        rw [htw] at h
        have h1 : '.' :: d :: ds2 = fp ∧ t2.dropWhile Char.isDigit = l3 := by
          have := h
          injection this with h5
          injection h5 with h5 h6
          exact ⟨h5, h6⟩
        have hdec : t2 = t2.takeWhile Char.isDigit ++ t2.dropWhile Char.isDigit :=
          (List.takeWhile_append_dropWhile _ _).symm
        rw [List.cons_append, hfr (t2 ++ u)]
        have hsp2 : (t2 ++ u).span Char.isDigit = (t2.takeWhile Char.isDigit, l3 ++ u) := by
          conv_lhs => rw [hdec]
          rw [← h1.2]
          exact span_extend _ _ _ (fun x hx => List.mem_takeWhile_imp hx)
            (fun x tt hxt => dropWhile_head_false _ _ _ _ hxt)
            (fun hnil => hu (by rw [← h1.2, hnil]))
        rw [hsp2, htw, ← h1.1]
    · have hrow : ∀ tail : List Char, lexFrac (c :: tail) = some ([], c :: tail) := by
        intro tail
        rw [lexFrac.eq_def]
        split
        · rename_i heq
          injection heq with heq1
          exact absurd heq1 hc
        · rfl
      rw [hrow t2] at h
      injection h with h1
      injection h1 with h1 h2
      subst h1
      subst h2
      rw [List.cons_append, hrow (t2 ++ u)]

theorem lexExp_ofSafe (u : List Char) (hu : numSafe u = true) :
    lexExp u = some ([], u) := by
  cases hu2 : u with
  | nil => rfl
  | cons c t =>
    have h3 := numSafe_head (hu2 ▸ hu)
    rw [lexExp.eq_def]
    split
    · rename_i heq
      injection heq with heq1 heq2
      subst heq1
      subst heq2
      rw [if_neg (by push_neg; exact ⟨h3.2.2.1, h3.2.2.2⟩)]
    · rename_i heq
      exact absurd heq (by simp)

theorem lexExpSign_eq (t2 sg r1 u : List Char) (hp : lexExpSign t2 = (sg, r1))
    (hne : t2 ≠ []) : lexExpSign (t2 ++ u) = (sg, r1 ++ u) := by
  cases t2 with
  | nil => exact absurd rfl hne
  | cons d rr =>
    by_cases hd1 : d = '+'
    · subst hd1
      rw [show lexExpSign ('+' :: rr) = (['+'], rr) from rfl] at hp
      injection hp with h1 h2
      subst h1
      subst h2
      rfl
    · by_cases hd2 : d = '-'
      · subst hd2
        rw [show lexExpSign ('-' :: rr) = (['-'], rr) from rfl] at hp
        injection hp with h1 h2
        subst h1
        subst h2
        rfl
      · have hrow : ∀ l5 : List Char, lexExpSign (d :: l5) = ([], d :: l5) := by
          intro l5
          rw [lexExpSign.eq_def]
          split
          · rename_i heq
            injection heq with heq1 heq2
            exact absurd heq1 hd1
          · rename_i heq
            injection heq with heq1 heq2
            exact absurd heq1 hd2
          · rfl
        rw [hrow rr] at hp
        injection hp with h1 h2
        subst h1
        subst h2
        rw [List.cons_append, hrow (rr ++ u)]

theorem lexExp_core (c : Char) (sg rr1 u ep l4 : List Char)
    (h : (match rr1.span Char.isDigit with
          | ([], _) => none
          | (ds, r2) => some (c :: (sg ++ ds), r2)) = some (ep, l4))
    (hu : l4 = [] → numSafe u = true) :
    (match (rr1 ++ u).span Char.isDigit with
      | ([], _) => none
      | (ds, r2) => some (c :: (sg ++ ds), r2)) = some (ep, l4 ++ u) := by
  rw [List.span_eq_take_drop] at h
  cases htw : rr1.takeWhile Char.isDigit with
  | nil =>
    rw [htw] at h
    exact Option.noConfusion h
  | cons d ds2 =>
    rw [htw] at h
    have h1 : c :: (sg ++ d :: ds2) = ep ∧ rr1.dropWhile Char.isDigit = l4 := by
      have h5 := h
      injection h5 with h6
      injection h6 with h6 h7
      exact ⟨h6, h7⟩
    have hdec : rr1 = rr1.takeWhile Char.isDigit ++ rr1.dropWhile Char.isDigit :=
      (List.takeWhile_append_dropWhile _ _).symm
    have hsp2 : (rr1 ++ u).span Char.isDigit = (rr1.takeWhile Char.isDigit, l4 ++ u) := by
      conv_lhs => rw [hdec]
      rw [← h1.2]
      exact span_extend _ _ _ (fun x hx => List.mem_takeWhile_imp hx)
        (fun x tt hxt => dropWhile_head_false _ _ _ _ hxt)
        (fun hnil => hu (by rw [← h1.2, hnil]))
    rw [hsp2, htw]
    show some (c :: (sg ++ d :: ds2), l4 ++ u) = some (ep, l4 ++ u)
    rw [h1.1]

theorem lexExp_extend (l3 u ep l4 : List Char) (h : lexExp l3 = some (ep, l4))
    (hu : l4 = [] → numSafe u = true) : lexExp (l3 ++ u) = some (ep, l4 ++ u) := by
  cases l3 with
  | nil =>
    rw [show lexExp [] = some ([], []) from rfl] at h
    injection h with h1
    injection h1 with h1 h2
    subst h1
    subst h2
    exact lexExp_ofSafe u (hu rfl)
  | cons c t2 =>
    by_cases hce : c = 'e' ∨ c = 'E'
    · have hrow : ∀ tail : List Char, lexExp (c :: tail) =
          (match (lexExpSign tail).2.span Char.isDigit with
          | ([], _) => none
          | (ds, r2) => some (c :: ((lexExpSign tail).1 ++ ds), r2)) := by
        intro tail
        rw [lexExp.eq_def]
        split
        · rename_i heq
          injection heq with heq1 heq2
          subst heq1
          subst heq2
          rw [if_pos hce]
        · rename_i heq
          exact absurd heq (by simp)
      rcases hp : lexExpSign t2 with ⟨sg, r1⟩
      have hne2 : t2 ≠ [] := by
        intro h0
        subst h0
        rw [hrow [], show lexExpSign [] = ([], []) from rfl] at h
        rw [List.span_eq_take_drop] at h
        exact Option.noConfusion h
      have hI := hrow t2
      rw [hp] at hI
      dsimp only [] at hI
      rw [hI] at h
      have hG := hrow (t2 ++ u)
      rw [lexExpSign_eq t2 sg r1 u hp hne2] at hG
      dsimp only [] at hG
      rw [List.cons_append, hG]
      exact lexExp_core c sg r1 u ep l4 h hu
    · have hrow : ∀ tail : List Char, lexExp (c :: tail) = some ([], c :: tail) := by
        intro tail
        rw [lexExp.eq_def]
        split
        · rename_i heq
          injection heq with heq1 heq2
          subst heq1
          subst heq2
          rw [if_neg hce]
        · rename_i heq
          exact absurd heq (by simp)
      rw [hrow t2] at h
      injection h with h1
      injection h1 with h1 h2
      subst h1
      subst h2
      rw [List.cons_append, hrow (t2 ++ u)]


theorem lexNum_eq (l : List Char) : lexNum l =
    (lexInt (lexSign l).2).bind (fun q =>
      (lexFrac q.2).bind (fun w =>
        (lexExp w.2).bind (fun e =>
          some ((lexSign l).1 ++ q.1 ++ w.1 ++ e.1, e.2)))) := by
  unfold lexNum
  rcases hs : lexSign l with ⟨sgn, l1⟩
  rfl

/-- A complete number lexeme followed by a safe continuation lexes to exactly
the same lexeme, leaving the continuation. -/
theorem lexNum_extend (t u : List Char) (h : lexNum t = some (t, []))
    (hu : numSafe u = true) : lexNum (t ++ u) = some (t, u) := by
  have hne : t ≠ [] := by
    intro h0
    subst h0
    rw [show lexNum [] = none from rfl] at h
    exact Option.noConfusion h
  rw [lexNum_eq] at h
  rcases hs : lexSign t with ⟨sgn, l1⟩
  rw [hs] at h
  dsimp only [] at h
  cases hi : lexInt l1 with
  | none =>
    rw [hi] at h
    exact Option.noConfusion h
  | some q =>
    rcases q with ⟨ip, l2⟩
    rw [hi] at h
    dsimp only [Option.bind] at h
    cases hf : lexFrac l2 with
    | none =>
      rw [hf] at h
      exact Option.noConfusion h
    | some w =>
      rcases w with ⟨fp, l3⟩
      rw [hf] at h
      dsimp only [Option.bind] at h
      cases he : lexExp l3 with
      | none =>
        rw [he] at h
        exact Option.noConfusion h
      | some e =>
        rcases e with ⟨ep, l4⟩
        rw [he] at h
        dsimp only [Option.bind] at h
        injection h with h1
        injection h1 with h1 h2
        subst h2
        rw [lexNum_eq, lexSign_extend t u sgn l1 hs hne]
        dsimp only []
        rw [lexInt_extend l1 u ip l2 hi (fun _ => hu)]
        dsimp only [Option.bind]
        rw [lexFrac_extend l2 u fp l3 hf (fun _ => hu)]
        dsimp only [Option.bind]
        rw [lexExp_extend l3 u ep [] he (fun _ => hu)]
        dsimp only [Option.bind]
        rw [h1, List.nil_append]

/-- A complete number lexeme starts with a minus sign or a digit. -/
theorem lexNum_head (t : List Char) (h : lexNum t = some (t, [])) :
    ∃ c t2, t = c :: t2 ∧ (c = '-' ∨ c.isDigit = true) := by
  cases t with
  | nil =>
    rw [show lexNum [] = none from rfl] at h
    exact Option.noConfusion h
  | cons c t2 =>
    refine ⟨c, t2, rfl, ?_⟩
    by_cases hc : c = '-'
    · exact Or.inl hc
    · right
      rw [lexNum_eq] at h
      have hrow : lexSign (c :: t2) = ([], c :: t2) := by
        rw [lexSign.eq_def]
        split
        · rename_i heq
          injection heq with heq1 heq2
          exact absurd heq1 hc
        · rfl
      rw [hrow] at h
      dsimp only [] at h
      by_cases hd : c.isDigit
      · exact hd
      · exfalso
        by_cases hc0 : c = '0'
        · subst hc0
          simp [Char.isDigit] at hd
        · have hrow2 : lexInt (c :: t2) = none := by
            rw [lexInt.eq_def]
            split
            · rename_i heq
              injection heq with heq1 heq2
              exact absurd heq1 hc0
            · rename_i hc02 heqe
              injection heqe with heq1 heq2
              subst heq1
              rw [if_neg (by simp [hd])]
            · rename_i heq
              exact absurd heq (by simp)
          rw [hrow2] at h
          exact Option.noConfusion h


/-! ## The printed string escape parses back to the original text -/

theorem pStrAux_step_escbs (acc r : List Char) :
    pStrAux acc ('\\' :: '\\' :: r) = pStrAux ('\\' :: acc) r := by
  delta pStrAux
  rfl

theorem pStrAux_step_escb (acc r : List Char) :
    pStrAux acc ('\\' :: 'b' :: r) = pStrAux ('\u0008' :: acc) r := by
  delta pStrAux
  rfl

theorem pStrAux_step_esct (acc r : List Char) :
    pStrAux acc ('\\' :: 't' :: r) = pStrAux ('\t' :: acc) r := by
  delta pStrAux
  rfl

theorem pStrAux_step_escn (acc r : List Char) :
    pStrAux acc ('\\' :: 'n' :: r) = pStrAux ('\n' :: acc) r := by
  delta pStrAux
  rfl

theorem pStrAux_step_escf (acc r : List Char) :
    pStrAux acc ('\\' :: 'f' :: r) = pStrAux ('\u000C' :: acc) r := by
  delta pStrAux
  rfl

theorem pStrAux_step_escr (acc r : List Char) :
    pStrAux acc ('\\' :: 'r' :: r) = pStrAux ('\r' :: acc) r := by
  delta pStrAux
  rfl

set_option maxHeartbeats 3200000 in
/-- The printer's `\u00XX` escape for a control character scans back to that
character. -/
theorem pStrAux_step_u00 (acc X : List Char) (k : Nat) (hk : k < 32) :
    pStrAux acc
        ('\\' :: 'u' :: '0' :: '0' :: hexDigitChar (k / 16) :: hexDigitChar (k % 16) :: X) =
      pStrAux (Char.ofNat k :: acc) X := by
  interval_cases k
  all_goals (delta pStrAux; rfl)

set_option maxHeartbeats 800000 in
/-- The string scanner undoes the printer's escaping `escAll`, consuming the
printed closing quote. -/
theorem pStrAux_escAll : ∀ (t acc r : List Char),
    pStrAux acc (escAll t ++ r) = some (acc.reverse ++ t, r) := by
  intro t
  induction t with
  | nil =>
    intro acc r
    rw [show escAll [] ++ r = '"' :: r from rfl, pStrAux_step_close]
    simp
  | cons c t2 ih =>
    intro acc r
    have hstep : escAll (c :: t2) ++ r = escChar c ++ (escAll t2 ++ r) := by
      rw [show escAll (c :: t2) = escChar c ++ escAll t2 from rfl, List.append_assoc]
    rw [hstep]
    by_cases h1 : c = '"'
    · subst h1
      rw [show escChar '"' = ['\\', '"'] from rfl, List.cons_append, List.cons_append,
        List.nil_append, pStrAux_step_escq, ih]
      simp
    · by_cases h2 : c = '\\'
      · subst h2
        rw [show escChar '\\' = ['\\', '\\'] from rfl, List.cons_append, List.cons_append,
          List.nil_append, pStrAux_step_escbs, ih]
        simp
      · by_cases h3 : c = '\u0008'
        · subst h3
          rw [show escChar '\u0008' = ['\\', 'b'] from rfl, List.cons_append,
            List.cons_append, List.nil_append, pStrAux_step_escb, ih]
          simp
        · by_cases h4 : c = '\t'
          · subst h4
            rw [show escChar '\t' = ['\\', 't'] from rfl, List.cons_append,
              List.cons_append, List.nil_append, pStrAux_step_esct, ih]
            simp
          · by_cases h5 : c = '\n'
            · subst h5
              rw [show escChar '\n' = ['\\', 'n'] from rfl, List.cons_append,
                List.cons_append, List.nil_append, pStrAux_step_escn, ih]
              simp
            · by_cases h6 : c = '\u000C'
              · subst h6
                rw [show escChar '\u000C' = ['\\', 'f'] from rfl, List.cons_append,
                  List.cons_append, List.nil_append, pStrAux_step_escf, ih]
                simp
              · by_cases h7 : c = '\r'
                · subst h7
                  rw [show escChar '\r' = ['\\', 'r'] from rfl, List.cons_append,
                    List.cons_append, List.nil_append, pStrAux_step_escr, ih]
                  simp
                · by_cases h8 : c.toNat < 0x20
                  · have hesc : escChar c = ['\\', 'u', '0', '0',
                        hexDigitChar (c.toNat / 16), hexDigitChar (c.toNat % 16)] := by
                      unfold escChar
                      rw [if_neg h1, if_neg h2, if_neg h3, if_neg h4, if_neg h5,
                        if_neg h6, if_neg h7, if_pos h8]
                    rw [hesc]
                    rw [show ['\\', 'u', '0', '0', hexDigitChar (c.toNat / 16),
                        hexDigitChar (c.toNat % 16)] ++ (escAll t2 ++ r) =
                      '\\' :: 'u' :: '0' :: '0' :: hexDigitChar (c.toNat / 16) ::
                        hexDigitChar (c.toNat % 16) :: (escAll t2 ++ r) from rfl]
                    rw [pStrAux_step_u00 acc (escAll t2 ++ r) c.toNat h8,
                      Char.ofNat_toNat, ih]
                    simp
                  · have hesc : escChar c = [c] := by
                      unfold escChar
                      rw [if_neg h1, if_neg h2, if_neg h3, if_neg h4, if_neg h5,
                        if_neg h6, if_neg h7, if_neg h8]
                    rw [hesc, List.cons_append, List.nil_append,
                      pStrAux_step_plain acc _ c h1 h2 (by omega), ih]
                    simp

/-- The printed string literal `quoteJson` parses back to the original text. -/
theorem pStr_escAll (t r : List Char) : pStr (escAll t ++ r) = some (String.mk t, r) := by
  unfold pStr
  rw [pStrAux_escAll t [] r]
  rfl


/-! ## Layout facts for the pretty-printer -/

theorem skipWs_append_ws (w l : List Char) (h : ∀ c ∈ w, isJsonWs c = true) :
    skipWs (w ++ l) = skipWs l :=
  dropWhile_append_of_all _ _ _ h

theorem skipWs_cons_false (c : Char) (r : List Char) (h : isJsonWs c = false) :
    skipWs (c :: r) = c :: r :=
  dropWhile_eq_self_of_head _ _ _ h

theorem indentChars_ws (d : Nat) : ∀ c ∈ indentChars d, isJsonWs c = true := by
  intro c hc
  unfold indentChars at hc
  rw [List.mem_replicate] at hc
  rw [hc.2]
  rfl

theorem isJsonWs_cases {c : Char} (h : isJsonWs c = true) :
    c = ' ' ∨ c = '\t' ∨ c = '\n' ∨ c = '\r' := by
  revert h
  simp [isJsonWs]
  tauto

theorem numSafe_of_ws {c : Char} (t : List Char) (h : isJsonWs c = true) :
    numSafe (c :: t) = true := by
  rcases isJsonWs_cases h with rfl | rfl | rfl | rfl
  all_goals rfl

theorem isJsonWs_false_of_digit {c : Char} (h : c.isDigit = true) :
    isJsonWs c = false := by
  cases h2 : isJsonWs c
  · rfl
  · exfalso
    rcases isJsonWs_cases h2 with rfl | rfl | rfl | rfl
    all_goals simp [Char.isDigit] at h

theorem jsize_pos (v : Json) : 1 ≤ jsize v := by
  cases v
  all_goals unfold jsize
  all_goals omega

/-- Head character of a printed well-formed value: never whitespace, never a
closing bracket. -/
theorem printVal_head (v : Json) (d : Nat) (hwf : Json.wf v = true) :
    ∃ c t2, printVal d v = c :: t2 ∧ isJsonWs c = false ∧ ¬c = ']' := by
  cases v with
  | null => exact ⟨'n', _, rfl, by decide, by decide⟩
  | bool b =>
    cases b
    · exact ⟨'f', _, rfl, by decide, by decide⟩
    · exact ⟨'t', _, rfl, by decide, by decide⟩
  | str s => exact ⟨'"', _, rfl, by decide, by decide⟩
  | num s =>
    have hlex : lexNum s.data = some (s.data, []) := by
      have h2 : decide (lexNum s.data = some (s.data, [])) = true := hwf
      exact of_decide_eq_true h2
    obtain ⟨c, t2, hct, hc⟩ := lexNum_head s.data hlex
    refine ⟨c, t2, ?_, ?_, ?_⟩
    · rw [show printVal d (.num s) = s.data from rfl, hct]
    · rcases hc with rfl | hd
      · rfl
      · exact isJsonWs_false_of_digit hd
    · rcases hc with rfl | hd
      · decide
      · intro h0
        subst h0
        simp [Char.isDigit] at hd
  | arr xs =>
    cases xs with
    | nil => exact ⟨'[', _, rfl, by decide, by decide⟩
    | cons x xs2 => exact ⟨'[', _, rfl, by decide, by decide⟩
  | obj kvs =>
    cases kvs with
    | nil => exact ⟨'\x7b', _, rfl, by decide, by decide⟩
    | cons p ps =>
      rcases p with ⟨k, v2⟩
      exact ⟨'\x7b', _, rfl, by decide, by decide⟩

/-- Inserting a fresh key appends the pair. -/
theorem insertPair_fresh : ∀ (acc : List (String × Json)) (k : String) (v : Json),
    (∀ p ∈ acc, ¬p.1 = k) → insertPair acc k v = acc ++ [(k, v)] := by
  intro acc
  induction acc with
  | nil => intro k v h; rfl
  | cons p rest ih =>
    intro k v h
    rcases p with ⟨k2, v2⟩
    rw [insertPair, if_neg (h (k2, v2) (by simp))]
    rw [ih k v (fun q hq => h q (by simp [hq]))]
    rfl


/-- Node count is bounded by printed length, for well-formed values. -/
theorem jsize_le_len : ∀ n : Nat,
    (∀ (v : Json) (d : Nat), Json.wf v = true → jsize v ≤ n →
      jsize v ≤ (printVal d v).length) ∧
    (∀ (xs : List Json) (d : Nat), wfItems xs = true → jsizeL xs ≤ n →
      jsizeL xs ≤ (printRest d xs).length) ∧
    (∀ (ps : List (String × Json)) (d : Nat), wfMembers ps = true → jsizeM ps ≤ n →
      jsizeM ps ≤ (printRestM d ps).length) := by
  intro n
  induction n using Nat.strong_induction_on with
  | _ n IH =>
    refine ⟨?_, ?_, ?_⟩
    · intro v d hwf hsz
      cases v with
      | null => simp [printVal, jsize]
      | bool b => cases b <;> simp [printVal, jsize]
      | num s =>
        have hlex : lexNum s.data = some (s.data, []) := of_decide_eq_true hwf
        obtain ⟨c, t2, hct, -⟩ := lexNum_head s.data hlex
        rw [show printVal d (.num s) = s.data from rfl, hct,
          show jsize (.num s) = 1 from rfl]
        simp
      | str s =>
        rw [show printVal d (.str s) = '"' :: escAll s.data from rfl,
          show jsize (.str s) = 1 from rfl]
        simp
      | arr xs =>
        cases xs with
        | nil =>
          rw [show printVal d (.arr []) = ['[', ']'] from rfl,
            show jsize (.arr []) = 1 from rfl]
          simp
        | cons x xs2 =>
          have hwf2 : Json.wf x = true ∧ wfItems xs2 = true := by
            have h2 : (Json.wf x && wfItems xs2) = true := hwf
            simpa using h2
          have hsz2 : jsize (.arr (x :: xs2)) = 1 + (1 + jsize x + jsizeL xs2) := rfl
          rw [hsz2] at hsz ⊢
          have hx1 := jsize_pos x
          have hx := (IH (jsize x) (by omega)).1 x (d + 1) hwf2.1 le_rfl
          have hxs := (IH (jsizeL xs2) (by omega)).2.1 xs2 (d + 1) hwf2.2 le_rfl
          rw [show printVal d (.arr (x :: xs2)) =
            '[' :: '\n' :: (indentChars (d + 1) ++ printVal (d + 1) x) ++
              printRest (d + 1) xs2 ++ '\n' :: (indentChars d ++ [']']) from rfl]
          simp only [List.length_append, List.length_cons]
          omega
      | obj kvs =>
        cases kvs with
        | nil =>
          rw [show printVal d (.obj []) = ['\x7b', '\x7d'] from rfl,
            show jsize (.obj []) = 1 from rfl]
          simp
        | cons p ps =>
          rcases p with ⟨k, v2⟩
          have hwf2 : Json.wf v2 = true ∧ wfMembers ps = true := by
            have h2 : (!(ps.any (fun q => q.1 == k)) && Json.wf v2 && wfMembers ps)
                = true := hwf
            simp at h2
            exact ⟨h2.1.2, h2.2⟩
          have hsz2 : jsize (.obj ((k, v2) :: ps)) = 1 + (1 + jsize v2 + jsizeM ps) := rfl
          rw [hsz2] at hsz ⊢
          have hv1 := jsize_pos v2
          have hv := (IH (jsize v2) (by omega)).1 v2 (d + 1) hwf2.1 le_rfl
          have hps := (IH (jsizeM ps) (by omega)).2.2 ps (d + 1) hwf2.2 le_rfl
          rw [show printVal d (.obj ((k, v2) :: ps)) =
            '\x7b' :: '\n' :: (indentChars (d + 1) ++ (quoteJson k.data ++ ':' :: ' ' ::
              printVal (d + 1) v2)) ++ printRestM (d + 1) ps ++
              '\n' :: (indentChars d ++ ['\x7d']) from rfl]
          simp only [List.length_append, List.length_cons]
          omega
    · intro xs d hwf hsz
      cases xs with
      | nil => simp [printRest, jsizeL]
      | cons x xs2 =>
        have hwf2 : Json.wf x = true ∧ wfItems xs2 = true := by
          have h2 : (Json.wf x && wfItems xs2) = true := hwf
          simpa using h2
        have hsz2 : jsizeL (x :: xs2) = 1 + jsize x + jsizeL xs2 := rfl
        rw [hsz2] at hsz ⊢
        have hx1 := jsize_pos x
        have hx := (IH (jsize x) (by omega)).1 x d hwf2.1 le_rfl
        have hxs := (IH (jsizeL xs2) (by omega)).2.1 xs2 d hwf2.2 le_rfl
        rw [show printRest d (x :: xs2) =
          ',' :: '\n' :: (indentChars d ++ printVal d x) ++ printRest d xs2 from rfl]
        simp only [List.length_append, List.length_cons]
        omega
    · intro ps d hwf hsz
      cases ps with
      | nil => simp [printRestM, jsizeM]
      | cons p ps2 =>
        rcases p with ⟨k, v2⟩
        have hwf2 : Json.wf v2 = true ∧ wfMembers ps2 = true := by
          have h2 : (!(ps2.any (fun q => q.1 == k)) && Json.wf v2 && wfMembers ps2)
              = true := hwf
          simp at h2
          exact ⟨h2.1.2, h2.2⟩
        have hsz2 : jsizeM ((k, v2) :: ps2) = 1 + jsize v2 + jsizeM ps2 := rfl
        rw [hsz2] at hsz ⊢
        have hv1 := jsize_pos v2
        have hv := (IH (jsize v2) (by omega)).1 v2 d hwf2.1 le_rfl
        have hps := (IH (jsizeM ps2) (by omega)).2.2 ps2 d hwf2.2 le_rfl
        rw [show printRestM d ((k, v2) :: ps2) =
          ',' :: '\n' :: (indentChars d ++ (quoteJson k.data ++ ':' :: ' ' ::
            printVal d v2)) ++ printRestM d ps2 from rfl]
        simp only [List.length_append, List.length_cons]
        omega


set_option maxHeartbeats 3200000 in
/-- A number-headed input drives the value parser into the number row. -/
theorem pVal_step_num (g : Nat) (c : Char) (tl : List Char)
    (h : c = '-' ∨ c.isDigit = true) :
    pVal (g + 1) (c :: tl) =
      (lexNum (c :: tl)).map (fun p => (Json.num (String.mk p.1), p.2)) := by
  have hd : ∀ x ∈ ['"', '\x7b', '[', 'n', 't', 'f'], ¬c = x := by
    intro x hx
    rcases h with h | h
    · subst h
      intro he
      rw [← he] at hx
      simp at hx
    · intro he
      subst he
      rw [List.mem_cons, List.mem_cons, List.mem_cons, List.mem_cons,
        List.mem_cons, List.mem_cons] at hx
      rcases hx with rfl | rfl | rfl | rfl | rfl | rfl | hx
      all_goals simp_all [Char.isDigit]
  rw [pVal.eq_def]
  split
  · rename_i heq
    exact absurd heq (by omega)
  · split
    all_goals first
      | (rename_i heq2
         injection heq2 with h1 h2
         exact absurd h1 (by
           first
             | exact hd '"' (by simp)
             | exact hd '\x7b' (by simp)
             | exact hd '[' (by simp)
             | exact hd 'n' (by simp)
             | exact hd 't' (by simp)
             | exact hd 'f' (by simp)))
      | (rename_i heq2
         injection heq2 with h1 h2
         subst h1
         subst h2
         rw [if_pos h])
      | (rename_i heq2
         exact absurd heq2 (by simp))

/-- Main roundtrip: printed well-formed values parse back to themselves (with
the item and member loops as auxiliary statements). -/
theorem parse_print : ∀ fuel : Nat,
    (∀ (v : Json) (d : Nat) (r : List Char), Json.wf v = true → jsize v ≤ fuel →
      numSafe r = true →
      pVal fuel (printVal d v ++ r) = some (v, r)) ∧
    (∀ (e : Nat) (x : Json) (xs : List Json) (acc : List Json) (cl r : List Char),
      Json.wf x = true → wfItems xs = true → 1 + jsize x + jsizeL xs ≤ fuel →
      (∀ c ∈ cl, isJsonWs c = true) →
      pItems fuel (printVal e x ++ (printRest e xs ++ (cl ++ ']' :: r))) acc =
        some (acc ++ x :: xs, r)) ∧
    (∀ (e : Nat) (k : String) (v : Json) (ps : List (String × Json))
        (acc : List (String × Json)) (cl r : List Char),
      Json.wf v = true → wfMembers ps = true →
      (ps.any (fun p => p.1 == k)) = false →
      (∀ p ∈ acc, ¬p.1 = k) →
      (∀ p ∈ acc, ∀ q ∈ ps, ¬p.1 = q.1) →
      1 + jsize v + jsizeM ps ≤ fuel →
      (∀ c ∈ cl, isJsonWs c = true) →
      pMems fuel ('"' :: (escAll k.data ++ (':' :: ' ' :: (printVal e v ++
        (printRestM e ps ++ (cl ++ '\x7d' :: r)))))) acc =
        some (acc ++ (k, v) :: ps, r)) := by
  intro fuel
  induction fuel using Nat.strong_induction_on with
  | _ fuel IH =>
    refine ⟨?_, ?_, ?_⟩
    · intro v d r hwf hsz hr
      obtain ⟨g, hg⟩ : ∃ g, fuel = g + 1 := by
        have := jsize_pos v
        cases fuel with
        | zero => omega
        | succ g => exact ⟨g, rfl⟩
      subst hg
      cases v with
      | null => exact rfl
      | bool b =>
        cases b
        · exact rfl
        · exact rfl
      | str s =>
        show pVal (g + 1) ('"' :: (escAll s.data ++ r)) = some (.str s, r)
        rw [show pVal (g + 1) ('"' :: (escAll s.data ++ r)) =
            (pStr (escAll s.data ++ r)).map (fun p => (Json.str p.1, p.2)) from rfl]
        rw [pStr_escAll]
        exact rfl
      | num s =>
        have hlex : lexNum s.data = some (s.data, []) := of_decide_eq_true hwf
        obtain ⟨c, t2, hct, hc⟩ := lexNum_head s.data hlex
        show pVal (g + 1) (s.data ++ r) = some (.num s, r)
        rw [hct, List.cons_append, pVal_step_num g c (t2 ++ r) hc,
          ← List.cons_append, ← hct]
        rw [lexNum_extend s.data r hlex hr]
        exact rfl
      | arr xs =>
        cases xs with
        | nil => exact rfl
        | cons x xs2 =>
          have hwf2 : Json.wf x = true ∧ wfItems xs2 = true := by
            have h2 : (Json.wf x && wfItems xs2) = true := hwf
            simpa using h2
          have hsz2 : jsize (.arr (x :: xs2)) = 1 + (1 + jsize x + jsizeL xs2) := rfl
          rw [hsz2] at hsz
          obtain ⟨c3, t3, hP, hPws, hPcl⟩ := printVal_head x (d + 1) hwf2.1
          have hcl : ∀ c2 ∈ '\n' :: indentChars d, isJsonWs c2 = true := by
            intro c2 hc2
            rcases List.mem_cons.mp hc2 with rfl | hc3
            · rfl
            · exact indentChars_ws d c2 hc3
          have hitems := (IH g (by omega)).2.1 (d + 1) x xs2 []
            ('\n' :: indentChars d) r hwf2.1 hwf2.2 (by omega) hcl
          have hshape : printVal d (.arr (x :: xs2)) ++ r =
              '[' :: (('\n' :: indentChars (d + 1)) ++ (printVal (d + 1) x ++
                (printRest (d + 1) xs2 ++ ('\n' :: indentChars d ++ ']' :: r)))) := by
            rw [show printVal d (.arr (x :: xs2)) =
              '[' :: '\n' :: (indentChars (d + 1) ++ printVal (d + 1) x) ++
                printRest (d + 1) xs2 ++ '\n' :: (indentChars d ++ [']']) from rfl]
            simp [List.cons_append, List.append_assoc]
          rw [hshape]
          rw [show pVal (g + 1) ('[' :: (('\n' :: indentChars (d + 1)) ++
              (printVal (d + 1) x ++ (printRest (d + 1) xs2 ++
                ('\n' :: indentChars d ++ ']' :: r))))) =
            (match skipWs (('\n' :: indentChars (d + 1)) ++ (printVal (d + 1) x ++
                (printRest (d + 1) xs2 ++ ('\n' :: indentChars d ++ ']' :: r)))) with
              | ']' :: r2 => some (Json.arr [], r2)
              | r1 => (pItems g r1 []).map (fun p => (Json.arr p.1, p.2))) from rfl]
          have hskip : skipWs (('\n' :: indentChars (d + 1)) ++ (printVal (d + 1) x ++
              (printRest (d + 1) xs2 ++ ('\n' :: indentChars d ++ ']' :: r)))) =
              c3 :: (t3 ++ (printRest (d + 1) xs2 ++
                ('\n' :: indentChars d ++ ']' :: r))) := by
            rw [skipWs_append_ws _ _ (by
              intro c2 hc2
              rcases List.mem_cons.mp hc2 with rfl | hc3
              · rfl
              · exact indentChars_ws (d + 1) c2 hc3)]
            rw [hP, List.cons_append, skipWs_cons_false c3 _ hPws]
          rw [hskip]
          split
          · rename_i r2 heq
            injection heq with heq1 heq2
            exact absurd heq1 hPcl
          · rw [show c3 :: (t3 ++ (printRest (d + 1) xs2 ++
                (('\n' :: indentChars d) ++ ']' :: r))) =
              printVal (d + 1) x ++ (printRest (d + 1) xs2 ++
                (('\n' :: indentChars d) ++ ']' :: r)) from by rw [hP]; simp]
            rw [hitems]
            exact rfl
      | obj kvs =>
        cases kvs with
        | nil => exact rfl
        | cons p ps =>
          rcases p with ⟨k, v2⟩
          have h2 : (!(ps.any (fun q => q.1 == k)) && Json.wf v2 && wfMembers ps)
              = true := hwf
          rw [Bool.and_eq_true, Bool.and_eq_true] at h2
          have hany : ps.any (fun q => q.1 == k) = false := by
            have h3 := h2.1.1
            revert h3
            cases ps.any (fun q => q.1 == k)
            · intro _
              rfl
            · intro h4
              exact absurd h4 (by decide)
          have hwfv := h2.1.2
          have hwfps := h2.2
          have hsz2 : jsize (.obj ((k, v2) :: ps)) = 1 + (1 + jsize v2 + jsizeM ps) := rfl
          rw [hsz2] at hsz
          have hcl : ∀ c2 ∈ '\n' :: indentChars d, isJsonWs c2 = true := by
            intro c2 hc2
            rcases List.mem_cons.mp hc2 with rfl | hc3
            · rfl
            · exact indentChars_ws d c2 hc3
          have hmems := (IH g (by omega)).2.2 (d + 1) k v2 ps []
            ('\n' :: indentChars d) r hwfv hwfps hany (by simp) (by simp)
            (by omega) hcl
          have hshape : printVal d (.obj ((k, v2) :: ps)) ++ r =
              '\x7b' :: (('\n' :: indentChars (d + 1)) ++ ('"' :: (escAll k.data ++
                (':' :: ' ' :: (printVal (d + 1) v2 ++ (printRestM (d + 1) ps ++
                  ('\n' :: indentChars d ++ '\x7d' :: r))))))) := by
            rw [show printVal d (.obj ((k, v2) :: ps)) =
              '\x7b' :: '\n' :: (indentChars (d + 1) ++ (quoteJson k.data ++
                ':' :: ' ' :: printVal (d + 1) v2)) ++ printRestM (d + 1) ps ++
                '\n' :: (indentChars d ++ ['\x7d']) from rfl]
            simp [quoteJson, List.cons_append, List.append_assoc]
          rw [hshape]
          rw [show pVal (g + 1) ('\x7b' :: (('\n' :: indentChars (d + 1)) ++
              ('"' :: (escAll k.data ++ (':' :: ' ' :: (printVal (d + 1) v2 ++
                (printRestM (d + 1) ps ++ ('\n' :: indentChars d ++ '\x7d' :: r)))))))) =
            (match skipWs (('\n' :: indentChars (d + 1)) ++ ('"' :: (escAll k.data ++
                (':' :: ' ' :: (printVal (d + 1) v2 ++ (printRestM (d + 1) ps ++
                  ('\n' :: indentChars d ++ '\x7d' :: r))))))) with
              | '\x7d' :: r2 => some (Json.obj [], r2)
              | r1 => (pMems g r1 []).map (fun p => (Json.obj p.1, p.2))) from rfl]
          have hskip : skipWs (('\n' :: indentChars (d + 1)) ++ ('"' :: (escAll k.data ++
              (':' :: ' ' :: (printVal (d + 1) v2 ++ (printRestM (d + 1) ps ++
                ('\n' :: indentChars d ++ '\x7d' :: r))))))) =
              '"' :: (escAll k.data ++ (':' :: ' ' :: (printVal (d + 1) v2 ++
                (printRestM (d + 1) ps ++ ('\n' :: indentChars d ++ '\x7d' :: r))))) := by
            rw [skipWs_append_ws _ _ (by
              intro c2 hc2
              rcases List.mem_cons.mp hc2 with rfl | hc3
              · rfl
              · exact indentChars_ws (d + 1) c2 hc3)]
            exact skipWs_cons_false '"' _ (by decide)
          rw [hskip]
          show (pMems g ('"' :: (escAll k.data ++ (':' :: ' ' :: (printVal (d + 1) v2 ++
              (printRestM (d + 1) ps ++ ('\n' :: indentChars d ++ '\x7d' :: r)))))) []).map
            (fun p => (Json.obj p.1, p.2)) = some (.obj ((k, v2) :: ps), r)
          rw [hmems]
          exact rfl
    · intro e x xs acc cl r hwfx hwfxs hsz hclws
      obtain ⟨g, hg⟩ : ∃ g, fuel = g + 1 := by
        cases fuel with
        | zero => omega
        | succ g => exact ⟨g, rfl⟩
      subst hg
      have hnum : numSafe (printRest e xs ++ (cl ++ ']' :: r)) = true := by
        cases xs with
        | nil =>
          rw [show (printRest e [] : List Char) = [] from rfl, List.nil_append]
          cases cl with
          | nil => rfl
          | cons c2 t2 => exact numSafe_of_ws _ (hclws c2 (by simp))
        | cons y ys => exact rfl
      have hpv := (IH g (by omega)).1 x e (printRest e xs ++ (cl ++ ']' :: r))
        hwfx (by omega) hnum
      rw [show pItems (g + 1) (printVal e x ++ (printRest e xs ++ (cl ++ ']' :: r))) acc =
        (match pVal g (printVal e x ++ (printRest e xs ++ (cl ++ ']' :: r))) with
          | none => none
          | some (v, r2) =>
            match skipWs r2 with
            | ',' :: r3 => pItems g (skipWs r3) (acc ++ [v])
            | ']' :: r3 => some (acc ++ [v], r3)
            | _ => none) from rfl]
      rw [hpv]
      show (match skipWs (printRest e xs ++ (cl ++ ']' :: r)) with
        | ',' :: r3 => pItems g (skipWs r3) (acc ++ [x])
        | ']' :: r3 => some (acc ++ [x], r3)
        | _ => none) = some (acc ++ x :: xs, r)
      cases xs with
      | nil =>
        have hskip : skipWs (printRest e [] ++ (cl ++ ']' :: r)) = ']' :: r := by
          rw [show (printRest e [] : List Char) = [] from rfl, List.nil_append,
            skipWs_append_ws _ _ hclws]
          exact skipWs_cons_false ']' _ (by decide)
        rw [hskip]
        exact rfl
      | cons y ys =>
        have hwf2 : Json.wf y = true ∧ wfItems ys = true := by
          have h2 : (Json.wf y && wfItems ys) = true := hwfxs
          simpa using h2
        have hszy : jsizeL (y :: ys) = 1 + jsize y + jsizeL ys := rfl
        rw [hszy] at hsz
        have hx1 := jsize_pos x
        have hshape : printRest e (y :: ys) ++ (cl ++ ']' :: r) =
            ',' :: (('\n' :: indentChars e) ++ (printVal e y ++
              (printRest e ys ++ (cl ++ ']' :: r)))) := by
          rw [show printRest e (y :: ys) =
            ',' :: '\n' :: (indentChars e ++ printVal e y) ++ printRest e ys from rfl]
          simp [List.cons_append, List.append_assoc]
        rw [hshape]
        rw [skipWs_cons_false ',' _ (by decide)]
        show pItems g (skipWs (('\n' :: indentChars e) ++ (printVal e y ++
            (printRest e ys ++ (cl ++ ']' :: r))))) (acc ++ [x]) =
          some (acc ++ x :: y :: ys, r)
        have hskip2 : skipWs (('\n' :: indentChars e) ++ (printVal e y ++
            (printRest e ys ++ (cl ++ ']' :: r)))) =
            printVal e y ++ (printRest e ys ++ (cl ++ ']' :: r)) := by
          rw [skipWs_append_ws _ _ (by
            intro c2 hc2
            rcases List.mem_cons.mp hc2 with rfl | hc3
            · rfl
            · exact indentChars_ws e c2 hc3)]
          obtain ⟨c3, t3, hP, hPws, -⟩ := printVal_head y e hwf2.1
          rw [hP, List.cons_append, skipWs_cons_false c3 _ hPws]
        rw [hskip2]
        have hitems := (IH g (by omega)).2.1 e y ys (acc ++ [x]) cl r
          hwf2.1 hwf2.2 (by omega) hclws
        rw [hitems]
        simp
    · intro e k v ps acc cl r hwfv hwfps hany hacc1 hacc2 hsz hclws
      obtain ⟨g, hg⟩ : ∃ g, fuel = g + 1 := by
        cases fuel with
        | zero => omega
        | succ g => exact ⟨g, rfl⟩
      subst hg
      rw [show pMems (g + 1) ('"' :: (escAll k.data ++ (':' :: ' ' :: (printVal e v ++
          (printRestM e ps ++ (cl ++ '\x7d' :: r)))))) acc =
        (match pStr (escAll k.data ++ (':' :: ' ' :: (printVal e v ++
            (printRestM e ps ++ (cl ++ '\x7d' :: r))))) with
          | none => none
          | some (k2, r1) =>
            match skipWs r1 with
            | ':' :: r2 =>
              match pVal g (skipWs r2) with
              | none => none
              | some (v2, r3) =>
                match skipWs r3 with
                | ',' :: r4 => pMems g (skipWs r4) (insertPair acc k2 v2)
                | '\x7d' :: r4 => some (insertPair acc k2 v2, r4)
                | _ => none
            | _ => none) from rfl]
      rw [pStr_escAll k.data (':' :: ' ' :: (printVal e v ++
        (printRestM e ps ++ (cl ++ '\x7d' :: r))))]
      show (match skipWs (':' :: ' ' :: (printVal e v ++
          (printRestM e ps ++ (cl ++ '\x7d' :: r)))) with
        | ':' :: r2 =>
          match pVal g (skipWs r2) with
          | none => none
          | some (v2, r3) =>
            match skipWs r3 with
            | ',' :: r4 => pMems g (skipWs r4) (insertPair acc k v2)
            | '\x7d' :: r4 => some (insertPair acc k v2, r4)
            | _ => none
        | _ => none) = some (acc ++ (k, v) :: ps, r)
      rw [skipWs_cons_false ':' _ (by decide)]
      show (match pVal g (skipWs (' ' :: (printVal e v ++
          (printRestM e ps ++ (cl ++ '\x7d' :: r))))) with
        | none => none
        | some (v2, r3) =>
          match skipWs r3 with
          | ',' :: r4 => pMems g (skipWs r4) (insertPair acc k v2)
          | '\x7d' :: r4 => some (insertPair acc k v2, r4)
          | _ => none) = some (acc ++ (k, v) :: ps, r)
      rw [show skipWs (' ' :: (printVal e v ++ (printRestM e ps ++
        (cl ++ '\x7d' :: r)))) = skipWs (printVal e v ++ (printRestM e ps ++
        (cl ++ '\x7d' :: r))) from rfl]
      obtain ⟨c3, t3, hP, hPws, -⟩ := printVal_head v e hwfv
      rw [show skipWs (printVal e v ++ (printRestM e ps ++ (cl ++ '\x7d' :: r))) =
          printVal e v ++ (printRestM e ps ++ (cl ++ '\x7d' :: r)) from by
        rw [hP, List.cons_append]
        exact skipWs_cons_false c3 _ hPws]
      have hnum : numSafe (printRestM e ps ++ (cl ++ '\x7d' :: r)) = true := by
        cases ps with
        | nil =>
          rw [show (printRestM e [] : List Char) = [] from rfl, List.nil_append]
          cases cl with
          | nil => rfl
          | cons c2 t2 => exact numSafe_of_ws _ (hclws c2 (by simp))
        | cons p2 ps2 =>
          rcases p2 with ⟨k2, v2⟩
          exact rfl
      have hpv := (IH g (by omega)).1 v e (printRestM e ps ++ (cl ++ '\x7d' :: r))
        hwfv (by omega) hnum
      rw [hpv]
      show (match skipWs (printRestM e ps ++ (cl ++ '\x7d' :: r)) with
        | ',' :: r4 => pMems g (skipWs r4) (insertPair acc k v)
        | '\x7d' :: r4 => some (insertPair acc k v, r4)
        | _ => none) = some (acc ++ (k, v) :: ps, r)
      rw [insertPair_fresh acc k v hacc1]
      cases ps with
      | nil =>
        have hskip : skipWs (printRestM e [] ++ (cl ++ '\x7d' :: r)) = '\x7d' :: r := by
          rw [show (printRestM e [] : List Char) = [] from rfl, List.nil_append,
            skipWs_append_ws _ _ hclws]
          exact skipWs_cons_false '\x7d' _ (by decide)
        rw [hskip]
        exact rfl
      | cons p2 ps2 =>
        rcases p2 with ⟨k2, v2⟩
        have h2 : (!(ps2.any (fun q => q.1 == k2)) && Json.wf v2 && wfMembers ps2)
            = true := hwfps
        rw [Bool.and_eq_true, Bool.and_eq_true] at h2
        have hany2 : ps2.any (fun q => q.1 == k2) = false := by
          have h3 := h2.1.1
          revert h3
          cases ps2.any (fun q => q.1 == k2)
          · intro _
            rfl
          · intro h4
            exact absurd h4 (by decide)
        have hwfv2 := h2.1.2
        have hwfps2 := h2.2
        rw [List.any_cons] at hany
        rw [Bool.or_eq_false_iff] at hany
        have hk2k : ¬k = k2 := by
          intro h0
          subst h0
          have h5 := hany.1
          simp at h5
        have hshape : printRestM e ((k2, v2) :: ps2) ++ (cl ++ '\x7d' :: r) =
            ',' :: (('\n' :: indentChars e) ++ ('"' :: (escAll k2.data ++
              (':' :: ' ' :: (printVal e v2 ++ (printRestM e ps2 ++
                (cl ++ '\x7d' :: r))))))) := by
          rw [show printRestM e ((k2, v2) :: ps2) =
            ',' :: '\n' :: (indentChars e ++ (quoteJson k2.data ++
              ':' :: ' ' :: printVal e v2)) ++ printRestM e ps2 from rfl]
          simp [quoteJson, List.cons_append, List.append_assoc]
        rw [hshape]
        rw [skipWs_cons_false ',' _ (by decide)]
        show pMems g (skipWs (('\n' :: indentChars e) ++ ('"' :: (escAll k2.data ++
            (':' :: ' ' :: (printVal e v2 ++ (printRestM e ps2 ++
              (cl ++ '\x7d' :: r)))))))) (acc ++ [(k, v)]) =
          some (acc ++ (k, v) :: (k2, v2) :: ps2, r)
        rw [show skipWs (('\n' :: indentChars e) ++ ('"' :: (escAll k2.data ++
            (':' :: ' ' :: (printVal e v2 ++ (printRestM e ps2 ++
              (cl ++ '\x7d' :: r))))))) =
            '"' :: (escAll k2.data ++ (':' :: ' ' :: (printVal e v2 ++
              (printRestM e ps2 ++ (cl ++ '\x7d' :: r))))) from by
          rw [skipWs_append_ws _ _ (by
            intro c2 hc2
            rcases List.mem_cons.mp hc2 with rfl | hc3
            · rfl
            · exact indentChars_ws e c2 hc3)]
          exact skipWs_cons_false '"' _ (by decide)]
        have hacc1n : ∀ p ∈ acc ++ [(k, v)], ¬p.1 = k2 := by
          intro p hp
          rcases List.mem_append.mp hp with hp2 | hp2
          · exact hacc2 p hp2 (k2, v2) (by simp)
          · have hpe : p = (k, v) := by simpa using hp2
            rw [hpe]
            exact hk2k
        have hacc2n : ∀ p ∈ acc ++ [(k, v)], ∀ q ∈ ps2, ¬p.1 = q.1 := by
          intro p hp q hq
          rcases List.mem_append.mp hp with hp2 | hp2
          · exact hacc2 p hp2 q (by simp [hq])
          · have hpe : p = (k, v) := by simpa using hp2
            rw [hpe]
            intro h0
            have h5 : ∀ q2 ∈ ps2, (q2.1 == k) = false := by
              have h6 := hany.2
              intro q2 hq2
              by_contra h7
              have h8 : (q2.1 == k) = true := by
                revert h7
                cases q2.1 == k
                · intro h9
                  exact absurd rfl h9
                · intro _
                  rfl
              have h9 : ps2.any (fun p2 => p2.1 == k) = true :=
                List.any_eq_true.mpr ⟨q2, hq2, h8⟩
              rw [h9] at h6
              exact Bool.noConfusion h6
            have h6 := h5 q hq
            rw [← h0] at h6
            simp at h6
        have hszv := jsize_pos v
        have hmems2 := (IH g (by omega)).2.2 e k2 v2 ps2 (acc ++ [(k, v)]) cl r
          hwfv2 hwfps2 hany2 hacc1n hacc2n
          (by
            have hj : jsizeM ((k2, v2) :: ps2) = 1 + jsize v2 + jsizeM ps2 := rfl
            rw [hj] at hsz
            omega) hclws
        rw [hmems2]
        simp


/-- `JSON.parse` undoes `JSON.stringify(v, null, 2)` on well-formed values. -/
theorem jsonParse_stringify2 (v : Json) (hwf : Json.wf v = true) :
    jsonParse (stringify2 v) = some v := by
  obtain ⟨c, t2, hP, hPws, -⟩ := printVal_head v 0 hwf
  have hlen := (jsize_le_len (jsize v)).1 v 0 hwf le_rfl
  have hpv := (parse_print (2 * (printVal 0 v).length + 2)).1 v 0 [] hwf (by omega) rfl
  rw [List.append_nil] at hpv
  show (match pVal (2 * (printVal 0 v).length + 2) (skipWs (printVal 0 v)) with
    | some (w, r2) => if skipWs r2 = [] then some w else none
    | none => none) = some v
  rw [show skipWs (printVal 0 v) = printVal 0 v from by
    rw [hP]
    exact skipWs_cons_false c t2 hPws]
  rw [hpv]
  rfl

/-! ## Claim C3 -/

/-- **C3.**  Every `SanitizeResult` returned by `sanitize` or `repair`
satisfies the parsed/cleanedString invariant: (1) a successful `sanitize` of
a string has `wasAlreadyParsed = false` and `parsed` equal to the parse of
`cleanedString`; (2) a non-null object or array input short-circuits with
`wasAlreadyParsed = true`, `parsed` the input itself and `cleanedString` its
indent-2 pretty-print, and — for well-formed runtime values, i.e. valid
number lexemes and distinct object keys — parsing `cleanedString` returns
exactly the input, so `cleanedString` is valid JSON text; (3) a successful
`repair` of a string likewise has `wasAlreadyParsed = false` and `parsed`
equal to the parse of `cleanedString`.  In every case `cleanedString` parses,
hence is valid JSON text. -/
theorem C3_result_invariants :
    (∀ (s : String) (rres : SanitizeResult), sanitize (.str s) = .ok rres →
      rres.wasAlreadyParsed = false ∧ jsonParse rres.cleanedString = some rres.parsed) ∧
    (∀ v : Json, Json.wf v = true →
      sanitize (.object v) = .ok ⟨stringify2 v, v, .object v, true, none⟩ ∧
      jsonParse (stringify2 v) = some v) ∧
    (∀ (s : String) (rres : SanitizeResult), repair (.str s) = .ok rres →
      rres.wasAlreadyParsed = false ∧ jsonParse rres.cleanedString = some rres.parsed) := by
  refine ⟨?_, ?_, ?_⟩
  · intro s rres h
    obtain ⟨hc, hp, -, hwa, -⟩ := sanitizeString_ok_inv (sanitize_str_ok h)
    refine ⟨hwa, ?_⟩
    rw [hc]
    exact hp
  · intro v hwf
    exact ⟨rfl, jsonParse_stringify2 v hwf⟩
  · intro s rres h
    have hs : s ≠ "" := by
      intro h0
      subst h0
      rw [show repair (.str "") = .error .invalidInput from rfl] at h
      exact Except.noConfusion h
    have h2 : repairStr s = .ok rres := h
    unfold repairStr at h2
    rw [validateInput_str hs] at h2
    cases hj : jsonParse (basicJsonRepair s) with
    | some parsed =>
      rw [hj] at h2
      simp only [Option.elim] at h2
      injection h2 with h3
      subst h3
      exact ⟨rfl, hj⟩
    | none =>
      rw [hj] at h2
      simp only [Option.elim] at h2
      cases hss : sanitizeString s with
      | error e =>
        rw [hss] at h2
        simp [Except.mapError] at h2
      | ok r2 =>
        rw [hss] at h2
        simp only [Except.mapError] at h2
        injection h2 with h3
        subst h3
        obtain ⟨hc, hp, -, hwa, -⟩ := sanitizeString_ok_inv hss
        refine ⟨hwa, ?_⟩
        rw [hc]
        exact hp

/-- Witness for C3 on all three paths: a padded string input, an object
input (checking the pretty-print parses back), and a repaired input. -/
theorem C3_witness :
    ((false : Bool) = false ∧
      jsonParse "\x7b\"a\": 1\x7d" = some (.obj [("a", .num "1")])) ∧
    (sanitize (.object (.obj [("a", .num "1")])) =
      .ok ⟨stringify2 (.obj [("a", .num "1")]), .obj [("a", .num "1")],
        .object (.obj [("a", .num "1")]), true, none⟩ ∧
      jsonParse (stringify2 (.obj [("a", .num "1")])) = some (.obj [("a", .num "1")])) ∧
    ((false : Bool) = false ∧
      jsonParse "\x7b\"name\": \"John\"\x7d" = some (.obj [("name", .str "John")])) :=
  ⟨C3_result_invariants.1 "  \x7b\"a\": 1\x7d"
      ⟨"\x7b\"a\": 1\x7d", .obj [("a", .num "1")], .str "  \x7b\"a\": 1\x7d", false, none⟩ rfl,
    C3_result_invariants.2.1 (.obj [("a", .num "1")]) rfl,
    C3_result_invariants.2.2 "\x7bname: \"John\"\x7d"
      ⟨"\x7b\"name\": \"John\"\x7d", .obj [("name", .str "John")],
        .str "\x7bname: \"John\"\x7d", false, some true⟩ rfl⟩

end JsonSan
